import Mathlib

/-!
Verification of `session_restore_core.py`: a shallow embedding of the module's
data model and operations, followed by theorems settling the specification
claims about it.  Python strings are modelled as Lean `String`s (ASCII-faithful:
`str.lower`, `str.strip` and the `\w` character class are modelled on their
ASCII behaviour, which covers every string the program manipulates), Python
numbers as `Int`, JSON values as an inductive type, and fallible operations as
`Option`.
-/

set_option maxRecDepth 40000

namespace SessionRestore

/-- JSON values as produced by Python's `json.loads`.  Numbers are modelled as
integers; none of the fields the program inspects carries a fractional value. -/
inductive Json where
  | null
  | bool (b : Bool)
  | num (n : Int)
  | str (s : String)
  | arr (elems : List Json)
  | obj (fields : List (String × Json))

mutual

/-- Decidable equality on JSON values (written out because automatic deriving
does not handle the nesting through lists). -/
def Json.decEq : (a b : Json) → Decidable (a = b)
  | .null, .null => .isTrue rfl
  | .null, .bool _ => .isFalse (fun h => Json.noConfusion h)
  | .null, .num _ => .isFalse (fun h => Json.noConfusion h)
  | .null, .str _ => .isFalse (fun h => Json.noConfusion h)
  | .null, .arr _ => .isFalse (fun h => Json.noConfusion h)
  | .null, .obj _ => .isFalse (fun h => Json.noConfusion h)
  | .bool _, .null => .isFalse (fun h => Json.noConfusion h)
  | .bool a, .bool b =>
    if h : a = b then .isTrue (h ▸ rfl)
    else .isFalse (fun hh => h (Json.bool.inj hh))
  | .bool _, .num _ => .isFalse (fun h => Json.noConfusion h)
  | .bool _, .str _ => .isFalse (fun h => Json.noConfusion h)
  | .bool _, .arr _ => .isFalse (fun h => Json.noConfusion h)
  | .bool _, .obj _ => .isFalse (fun h => Json.noConfusion h)
  | .num _, .null => .isFalse (fun h => Json.noConfusion h)
  | .num _, .bool _ => .isFalse (fun h => Json.noConfusion h)
  | .num a, .num b =>
    if h : a = b then .isTrue (h ▸ rfl)
    else .isFalse (fun hh => h (Json.num.inj hh))
  | .num _, .str _ => .isFalse (fun h => Json.noConfusion h)
  | .num _, .arr _ => .isFalse (fun h => Json.noConfusion h)
  | .num _, .obj _ => .isFalse (fun h => Json.noConfusion h)
  | .str _, .null => .isFalse (fun h => Json.noConfusion h)
  | .str _, .bool _ => .isFalse (fun h => Json.noConfusion h)
  | .str _, .num _ => .isFalse (fun h => Json.noConfusion h)
  | .str a, .str b =>
    if h : a = b then .isTrue (h ▸ rfl)
    else .isFalse (fun hh => h (Json.str.inj hh))
  | .str _, .arr _ => .isFalse (fun h => Json.noConfusion h)
  | .str _, .obj _ => .isFalse (fun h => Json.noConfusion h)
  | .arr _, .null => .isFalse (fun h => Json.noConfusion h)
  | .arr _, .bool _ => .isFalse (fun h => Json.noConfusion h)
  | .arr _, .num _ => .isFalse (fun h => Json.noConfusion h)
  | .arr _, .str _ => .isFalse (fun h => Json.noConfusion h)
  | .arr xs, .arr ys =>
    match Json.decEqList xs ys with
    | .isTrue h => .isTrue (h ▸ rfl)
    | .isFalse h => .isFalse (fun hh => h (Json.arr.inj hh))
  | .arr _, .obj _ => .isFalse (fun h => Json.noConfusion h)
  | .obj _, .null => .isFalse (fun h => Json.noConfusion h)
  | .obj _, .bool _ => .isFalse (fun h => Json.noConfusion h)
  | .obj _, .num _ => .isFalse (fun h => Json.noConfusion h)
  | .obj _, .str _ => .isFalse (fun h => Json.noConfusion h)
  | .obj _, .arr _ => .isFalse (fun h => Json.noConfusion h)
  | .obj xs, .obj ys =>
    match Json.decEqFields xs ys with
    | .isTrue h => .isTrue (h ▸ rfl)
    | .isFalse h => .isFalse (fun hh => h (Json.obj.inj hh))

/-- Decidable equality on lists of JSON values. -/
def Json.decEqList : (xs ys : List Json) → Decidable (xs = ys)
  | [], [] => .isTrue rfl
  | [], _ :: _ => .isFalse (fun h => List.noConfusion h)
  | _ :: _, [] => .isFalse (fun h => List.noConfusion h)
  | x :: xs, y :: ys =>
    match Json.decEq x y with
    | .isFalse h => .isFalse (fun hh => h (List.cons.inj hh).1)
    | .isTrue h1 =>
      match Json.decEqList xs ys with
      | .isTrue h2 => .isTrue (h1 ▸ h2 ▸ rfl)
      | .isFalse h2 => .isFalse (fun hh => h2 (List.cons.inj hh).2)

/-- Decidable equality on JSON object field lists. -/
def Json.decEqFields : (xs ys : List (String × Json)) → Decidable (xs = ys)
  | [], [] => .isTrue rfl
  | [], _ :: _ => .isFalse (fun h => List.noConfusion h)
  | _ :: _, [] => .isFalse (fun h => List.noConfusion h)
  | (k1, v1) :: xs, (k2, v2) :: ys =>
    if hk : k1 = k2 then
      match Json.decEq v1 v2 with
      | .isFalse h =>
        .isFalse (fun hh => h (congrArg Prod.snd (List.cons.inj hh).1))
      | .isTrue hv =>
        match Json.decEqFields xs ys with
        | .isTrue h2 => .isTrue (hk ▸ hv ▸ h2 ▸ rfl)
        | .isFalse h2 => .isFalse (fun hh => h2 (List.cons.inj hh).2)
    else .isFalse (fun hh => hk (congrArg Prod.fst (List.cons.inj hh).1))

end

instance : DecidableEq Json := Json.decEq

/-- Python truthiness of a JSON value (`bool(x)`). -/
def Json.truthy : Json → Bool
  | .null => false
  | .bool b => b
  | .num n => n != 0
  | .str s => s != ""
  | .arr l => !l.isEmpty
  | .obj l => !l.isEmpty

/-- A Python dict holding JSON data, as an association list.  Lookup is
last-wins, matching how `json.loads` resolves duplicate keys. -/
abbrev Dict := List (String × Json)

/-- `d.get(k)`: `none` models Python's `None` default. -/
def dictGet (d : Dict) (k : String) : Option Json :=
  match d with
  | [] => none
  | (k0, v) :: rest => match dictGet rest k with
    | some v1 => some v1
    | none => if k0 = k then some v else none

/-- Escape one character the way Python `repr` renders it inside a
single-quoted string literal (common cases; the program never inspects the
result of `repr`, it only tests the string for emptiness). -/
def pyReprEscape (c : Char) : String :=
  if c = '\\' then "\\\\"
  else if c = '\'' then "\\'"
  else if c = '\n' then "\\n"
  else if c = '\r' then "\\r"
  else if c = '\t' then "\\t"
  else String.mk [c]

mutual

/-- Python `repr` of a JSON value. -/
def pyRepr : Json → String
  | .null => "None"
  | .bool true => "True"
  | .bool false => "False"
  | .num n => toString n
  | .str s => "'" ++ String.join (s.data.map pyReprEscape) ++ "'"
  | .arr l => "[" ++ pyReprList l ++ "]"
  | .obj l => "\x7b" ++ pyReprFields l ++ "\x7d"

/-- `repr` of list elements, comma separated. -/
def pyReprList : List Json → String
  | [] => ""
  | [j] => pyRepr j
  | j :: rest => pyRepr j ++ ", " ++ pyReprList rest

/-- `repr` of dict fields, comma separated. -/
def pyReprFields : List (String × Json) → String
  | [] => ""
  | [(k, v)] => "'" ++ k ++ "': " ++ pyRepr v
  | (k, v) :: rest => "'" ++ k ++ "': " ++ pyRepr v ++ ", " ++ pyReprFields rest

end

/-- Python `str(x)` of a JSON value. -/
def pyStr : Json → String
  | .str s => s
  | j => pyRepr j

/-- `str(value or "")`: the idiom the module uses to read an optional string
field (falsy values collapse to the empty string). -/
def pyStrOr (o : Option Json) : String :=
  match o with
  | some j => if j.truthy then pyStr j else ""
  | none => ""

/-- `value or None`: keeps a truthy value, collapses falsy values to `None`. -/
def truthyOpt (o : Option Json) : Option Json :=
  match o with
  | some j => if j.truthy then some j else none
  | none => none

/-! ## The shell tokenizer (`shlex.split`, `shlex.quote`, `shlex.join`)

`parse_shell_tokens` delegates to `shlex.split` in POSIX mode with
whitespace splitting, falling back to naive whitespace splitting when the
command line is malformed (unbalanced quote or trailing escape). -/

/-- The characters `shlex` treats as token separators. -/
def shlexWhitespace : List Char := [' ', '\t', '\r', '\n']

/-- The scanner states of `shlex.read_token` (POSIX, whitespace split):
outside a token, inside a bare word, inside single or double quotes, and
after a backslash (outside quotes or inside double quotes). -/
inductive ScanState where
  | ground
  | word
  | squote
  | dquote
  | esc
  | escDquote

/-- The character-by-character scan of `shlex.read_token`: a single quote
takes everything to the matching quote literally; inside double quotes a
backslash escapes only a double quote or another backslash and is otherwise
kept; outside quotes a backslash escapes the next character.  `none` models
the `ValueError` on an unterminated quote (`No closing quotation`) or a
trailing escape (`No escaped character`); a quote opens the token, so a
quoted empty string still produces a token. -/
def shlexScan : List Char → ScanState → String → List String → Option (List String)
  | [], st, tok, acc =>
    match st with
    | .ground => some acc
    | .word => some (acc ++ [tok])
    | _ => none
  | c :: cs, st, tok, acc =>
    match st with
    | .ground =>
      if c ∈ shlexWhitespace then shlexScan cs .ground "" acc
      else if c = '\'' then shlexScan cs .squote tok acc
      else if c = '"' then shlexScan cs .dquote tok acc
      else if c = '\\' then shlexScan cs .esc tok acc
      else shlexScan cs .word (tok.push c) acc
    | .word =>
      if c ∈ shlexWhitespace then shlexScan cs .ground "" (acc ++ [tok])
      else if c = '\'' then shlexScan cs .squote tok acc
      else if c = '"' then shlexScan cs .dquote tok acc
      else if c = '\\' then shlexScan cs .esc tok acc
      else shlexScan cs .word (tok.push c) acc
    | .squote =>
      if c = '\'' then shlexScan cs .word tok acc
      else shlexScan cs .squote (tok.push c) acc
    | .dquote =>
      if c = '"' then shlexScan cs .word tok acc
      else if c = '\\' then shlexScan cs .escDquote tok acc
      else shlexScan cs .dquote (tok.push c) acc
    | .esc => shlexScan cs .word (tok.push c) acc
    | .escDquote =>
      if c = '"' ∨ c = '\\' then shlexScan cs .dquote (tok.push c) acc
      else shlexScan cs .dquote ((tok.push '\\').push c) acc

/-- `shlex.split(s)` (POSIX, whitespace split); `none` models `ValueError`. -/
def shlexSplit (s : String) : Option (List String) :=
  shlexScan s.data .ground "" []

/-- The whitespace set of Python's `str.split()` (ASCII portion). -/
def pyWhitespace : List Char := [' ', '\t', '\r', '\n', '\x0b', '\x0c']

/-- Python `str.split()` with no argument: split on whitespace runs. -/
def pySplitWsGo : List Char → String → List String
  | [], tok => if tok = "" then [] else [tok]
  | c :: cs, tok =>
    if c ∈ pyWhitespace then
      if tok = "" then pySplitWsGo cs "" else tok :: pySplitWsGo cs ""
    else pySplitWsGo cs (tok.push c)

/-- `parse_shell_tokens(args)`: tokenize a process command string into
argv-like tokens, degrading to naive whitespace splitting on malformed
quoting. -/
def parse_shell_tokens (args : String) : List String :=
  if args = "" then []
  else match shlexSplit args with
    | some toks => toks
    | none => pySplitWsGo args.data ""

/-- The characters `shlex.quote` leaves unquoted (Python's `\w` restricted to
ASCII, plus `@ % + = : , .` and slash and dash). -/
def shlexSafeChar (c : Char) : Bool :=
  c.isAlphanum || c ∈ ['_', '@', '%', '+', '=', ':', ',', '.', '/', '-']

/-- One step of `s.replace("'", "'\"'\"'")`: a single quote becomes
quote, double quote, quote, double quote, quote; anything else is kept. -/
def quoteEsc (c : Char) : List Char :=
  if c = '\'' then ['\'', '"', '\'', '"', '\''] else [c]

/-- `s.replace("'", "'\"'\"'")` over the characters. -/
def quoteBody : List Char → List Char
  | [] => []
  | c :: cs => quoteEsc c ++ quoteBody cs

/-- `shlex.quote(s)`. -/
def shlexQuote (s : String) : String :=
  if s = "" then "''"
  else if s.data.all shlexSafeChar then s
  else "'" ++ String.mk (quoteBody s.data) ++ "'"

/-- `' '.join(shlex.quote(x) for x in argv)`, i.e. `shlex.join` on strings. -/
def shellJoinStrs : List String → String
  | [] => ""
  | [t] => shlexQuote t
  | t :: rest => shlexQuote t ++ " " ++ shellJoinStrs rest

/-- Extract the strings of a Python list; `none` when a non-string is found. -/
def jsonStrs : List Json → Option (List String)
  | [] => some []
  | .str s :: rest => (jsonStrs rest).map (s :: ·)
  | _ :: _ => none

/-- `shell_join(argv)`: `none` models the `TypeError` that `shlex.quote`
raises on a non-string argv entry (only string entries are joinable). -/
def shell_join (argv : List Json) : Option String :=
  (jsonStrs argv).map shellJoinStrs

/-! ## UUIDs, executable names and the per-tool token sets -/

/-- Split a character list at every occurrence of a separator character
(Python `str.split(sep)` with a one-character separator). -/
def splitOnChar (sep : Char) : List Char → List String
  | [] => [""]
  | c :: cs =>
    let rest := splitOnChar sep cs
    if c = sep then "" :: rest
    else match rest with
      | r :: rs => (String.mk [c] ++ r) :: rs
      | [] => [String.mk [c]]

/-- A hexadecimal digit (the character class of `UUID_PATTERN` with
`re.IGNORECASE`). -/
def isHexDigit (c : Char) : Bool :=
  c.isDigit || ('a' ≤ c && c ≤ 'f') || ('A' ≤ c && c ≤ 'F')

/-- `_looks_like_uuid(value)`: full match of the canonical 8-4-4-4-12
hexadecimal UUID shape, case-insensitive. -/
def looksLikeUuid (s : String) : Bool :=
  match splitOnChar '-' s.data with
  | [a, b, c, d, e] =>
    a.length = 8 && b.length = 4 && c.length = 4 && d.length = 4 &&
    e.length = 12 && a.data.all isHexDigit && b.data.all isHexDigit &&
    c.data.all isHexDigit && d.data.all isHexDigit && e.data.all isHexDigit
  | _ => false

/-- `os.path.basename(token)`: the part after the last slash. -/
def basename (t : String) : String :=
  (splitOnChar '/' t.data).getLastD ""

/-- Character-level prefix test. -/
def isPref : List Char → List Char → Bool
  | [], _ => true
  | _ :: _, [] => false
  | a :: as, b :: bs => a = b && isPref as bs

/-- `s.startswith(pre)`. -/
def strStartsWith (s pre : String) : Bool :=
  isPref pre.data s.data

/-- `s.endswith(suf)`. -/
def strEndsWith (s suf : String) : Bool :=
  isPref suf.data.reverse s.data.reverse

/-- Drop a leading executable-name token whose base name matches the tool
(`tokens[1:] if tokens and basename(tokens[0]) == tool else tokens`). -/
def stripExecutable (tool : String) (tokens : List String) : List String :=
  match tokens with
  | [] => []
  | t :: rest => if basename t = tool then rest else t :: rest

/-- `CODEX_INTERACTIVE_SUBCOMMANDS`. -/
def CODEX_INTERACTIVE_SUBCOMMANDS : List String := ["resume", "fork"]

/-- `CODEX_NON_INTERACTIVE_SUBCOMMANDS`. -/
def CODEX_NON_INTERACTIVE_SUBCOMMANDS : List String :=
  ["exec", "review", "login", "logout", "mcp", "mcp-server", "app-server",
   "app", "completion", "sandbox", "debug", "apply", "cloud", "features",
   "help"]

/-- `CLAUDE_OPTS_WITH_VALUE`: options that consume a value token when given
as `--opt value`. -/
def CLAUDE_OPTS_WITH_VALUE : List String :=
  ["--add-dir", "--agent", "--agents", "--allowedTools", "--allowed-tools",
   "--append-system-prompt", "--betas", "--debug", "--debug-file",
   "--disallowedTools", "--disallowed-tools", "--effort", "--fallback-model",
   "--file", "--from-pr", "--input-format", "--json-schema",
   "--max-budget-usd", "--mcp-config", "--model", "--output-format",
   "--permission-mode", "--plugin-dir", "--session-id", "--setting-sources",
   "--settings", "--system-prompt", "--tools", "-r"]

/-- `CODEX_OPTS_WITH_VALUE`. -/
def CODEX_OPTS_WITH_VALUE : List String :=
  ["-c", "--config", "--enable", "--disable", "-i", "--image", "-m",
   "--model", "--local-provider", "-p", "--profile", "-s", "--sandbox",
   "-a", "--ask-for-approval", "-C", "--cd", "--add-dir"]

/-! ## Explicit resume-id extraction and interactivity classification -/

/-- The scan of `extract_claude_resume_id`: find a resume directive whose
immediately following token is a canonical UUID. -/
def findResumeId (directives : List String) : List String → Option String
  | t :: next :: rest =>
    if t ∈ directives ∧ looksLikeUuid next then some next
    else findResumeId directives (next :: rest)
  | _ => none

/-- `extract_claude_resume_id(args)`. -/
def extract_claude_resume_id (args : String) : Option String :=
  findResumeId ["--resume", "-r"] (parse_shell_tokens args)

/-- `extract_codex_resume_id(args)`. -/
def extract_codex_resume_id (args : String) : Option String :=
  findResumeId CODEX_INTERACTIVE_SUBCOMMANDS (parse_shell_tokens args)

/-- The token walk of `codex_is_interactive`: skip option tokens (consuming
the value of a value-bearing option), classify on the first bare token. -/
def codexScan : List String → Bool
  | [] => true
  | t :: rest =>
    if strStartsWith t "-" then
      if t ∈ CODEX_OPTS_WITH_VALUE then
        match rest with
        | _ :: rest2 => codexScan rest2
        | [] => true
      else codexScan rest
    else if t ∈ CODEX_INTERACTIVE_SUBCOMMANDS then true
    else if t ∈ CODEX_NON_INTERACTIVE_SUBCOMMANDS then false
    else true

/-- `codex_is_interactive(args)`: true when a codex process is likely an
interactive session worth restoring. -/
def codex_is_interactive (args : String) : Bool :=
  match parse_shell_tokens args with
  | [] => false
  | t :: rest => codexScan (stripExecutable "codex" (t :: rest))

/-! ## Flag extraction -/

/-- The token walk of `_extract_tokens_with_values`: drop skip-set tokens
(with their value when the token is also value-bearing), drop a directive
token of `skipUuidAfter` together with an immediately following UUID, keep
option-like tokens (with their value when value-bearing and the next token is
not option-like), and drop bare positional tokens. -/
def extractTokens (skipTokens optsWithValue skipUuidAfter : List String) :
    List String → List String
  | [] => []
  | [t] =>
    if t ∈ skipTokens then []
    else if t ∈ skipUuidAfter then []
    else if strStartsWith t "-" then [t]
    else []
  | t :: nxt :: rest2 =>
    if t ∈ skipTokens then
      if t ∈ optsWithValue then extractTokens skipTokens optsWithValue skipUuidAfter rest2
      else extractTokens skipTokens optsWithValue skipUuidAfter (nxt :: rest2)
    else if t ∈ skipUuidAfter then
      if looksLikeUuid nxt then extractTokens skipTokens optsWithValue skipUuidAfter rest2
      else extractTokens skipTokens optsWithValue skipUuidAfter (nxt :: rest2)
    else if strStartsWith t "-" then
      if t ∈ optsWithValue then
        if ¬ strStartsWith nxt "-" then
          t :: nxt :: extractTokens skipTokens optsWithValue skipUuidAfter rest2
        else t :: extractTokens skipTokens optsWithValue skipUuidAfter (nxt :: rest2)
      else t :: extractTokens skipTokens optsWithValue skipUuidAfter (nxt :: rest2)
    else extractTokens skipTokens optsWithValue skipUuidAfter (nxt :: rest2)

/-- `extract_claude_flags(args)`. -/
def extract_claude_flags (args : String) : List String :=
  extractTokens ["--resume", "-r", "--continue", "-c"] CLAUDE_OPTS_WITH_VALUE []
    (stripExecutable "claude" (parse_shell_tokens args))

/-- `extract_codex_flags(args)`. -/
def extract_codex_flags (args : String) : List String :=
  extractTokens ["--last", "--all"] CODEX_OPTS_WITH_VALUE
    CODEX_INTERACTIVE_SUBCOMMANDS
    (stripExecutable "codex" (parse_shell_tokens args))

/-! ## Session record normalization, argv building, restore-file loading -/

/-- The normalized Session Record: the exact set of keys
`normalize_restore_entry` returns. -/
structure Record where
  tool : String
  sessionId : Option Json
  cwd : String
  flags : List String
  deriving DecidableEq

/-- `normalize_flags(flags)`: a list keeps its non-empty strings, a string is
re-tokenized, anything else yields the empty list. -/
def normalize_flags : Option Json → List String
  | some (.arr l) =>
    l.filterMap fun j =>
      match j with
      | .str s => if s ≠ "" then some s else none
      | _ => none
  | some (.str s) => parse_shell_tokens s
  | _ => []

/-- Python `str.lower()` (ASCII). -/
def pyLower (s : String) : String :=
  String.mk (s.data.map Char.toLower)

/-- Python `str.strip()` (ASCII whitespace). -/
def pyStrip (s : String) : String :=
  String.mk ((s.data.dropWhile (· ∈ pyWhitespace)).reverse.dropWhile
    (· ∈ pyWhitespace) |>.reverse)

/-- `normalize_restore_entry(entry)`. -/
def normalize_restore_entry (entry : Dict) : Record :=
  let tool0 := pyLower (pyStrip (pyStrOr (dictGet entry "tool")))
  { tool := if tool0 = "claude" ∨ tool0 = "codex" then tool0 else "claude"
    sessionId := truthyOpt (dictGet entry "sessionId")
    cwd := pyStrOr (dictGet entry "cwd")
    flags := normalize_flags (dictGet entry "flags") }

/-- `build_restore_argv(session)`: normalizes its input, then rebuilds the
relaunch argv.  The result is a Python list that holds the raw (possibly
non-string) `sessionId` value, hence a list of JSON values. -/
def build_restore_argv (session : Dict) : List Json :=
  let s := normalize_restore_entry session
  if s.tool = "codex" then
    match s.sessionId with
    | some sid => [.str "codex", .str "resume", sid] ++ s.flags.map .str
    | none => [.str "codex", .str "resume", .str "--last"] ++ s.flags.map .str
  else
    match s.sessionId with
    | some sid => [.str "claude", .str "--resume", sid] ++ s.flags.map .str
    | none => [.str "claude", .str "--continue"] ++ s.flags.map .str

/-- `load_restore_file(path)`.  The argument models
`json.loads(path.read_text())`: `Except.error` is an `OSError` or
`JSONDecodeError` (both caught), `Except.ok` the decoded JSON document. -/
def load_restore_file (input : Except Unit Json) : List Record :=
  match input with
  | .error _ => []
  | .ok (.arr items) =>
    items.filterMap fun item =>
      match item with
      | .obj fields =>
        let normalized := normalize_restore_entry fields
        if normalized.cwd ≠ "" then some normalized else none
      | _ => none
  | .ok _ => []

/-! ## The filesystem-facing part: session-log scanning and resolution

The filesystem is modelled as an explicit environment: a directory listing, a
per-file modification time, a per-file sequence of decoded JSONL lines
(`none` models an `OSError`), and a directory-existence test.  Working
directories are modelled by their absolute-path component lists (the
`pathlib.Path` normal form). -/

/-- One line of a JSONL session log, as seen through `json.loads`:
either a decoding failure (caught and skipped) or a JSON value. -/
inductive JLine where
  | decodeFail
  | val (j : Json)

/-- The filesystem environment consumed by the log-scan resolver. -/
structure RawFS where
  isDir : String → Bool
  listDir : String → Option (List String)
  mtime : String → Option Int
  fileLines : String → Option (List JLine)

/-- The line scan of `is_real_claude_session`: skip undecodable lines, stop
at the first entry whose `type` is `"user"`.  `none` models the uncaught
`AttributeError` when a line decodes to a non-object (`entry.get` on it). -/
def scanSessionLines : List JLine → Option Bool
  | [] => some false
  | .decodeFail :: rest => scanSessionLines rest
  | .val (.obj fields) :: rest =>
    if dictGet fields "type" = some (.str "user") then some true
    else scanSessionLines rest
  | .val _ :: _ => none

/-- `is_real_claude_session(filepath)`: true if the session file contains at
least one user message within its first `maxLines` lines; an unreadable file
counts as not real. -/
def is_real_claude_session (fs : RawFS) (filepath : String)
    (maxLines : Nat := 25) : Option Bool :=
  match fs.fileLines filepath with
  | none => some false
  | some lines => scanSessionLines (lines.take maxLines)

/-- Python `str.removesuffix`. -/
def pyRemoveSuffix (s suf : String) : String :=
  if suf ≠ "" ∧ strEndsWith s suf then
    String.mk (s.data.take (s.data.length - suf.data.length))
  else s

/-- The candidate collection loop of `get_recent_real_claude_sessions`:
keep `.jsonl` files other than the reserved index file whose id is not
already claimed and whose modification time is readable. -/
def sessionCandidates (fs : RawFS) (project_dir : String) (names : List String)
    (claimed : List Json) : List (Int × String × String) :=
  names.filterMap fun name =>
    if ¬ strEndsWith name ".jsonl" ∨ name = "sessions-index.json" then none
    else
      let sid := pyRemoveSuffix name ".jsonl"
      if Json.str sid ∈ claimed then none
      else
        let path := project_dir ++ "/" ++ name
        match fs.mtime path with
        | none => none
        | some m => some (m, sid, path)

/-- Strict lexicographic comparison of character lists: Python's `<` on
strings (code-point order). -/
def charListLt : List Char → List Char → Bool
  | _, [] => false
  | [], _ :: _ => true
  | a :: as, b :: bs =>
    if a < b then true else if b < a then false else charListLt as bs

/-- Descending lexicographic comparison on `(mtime, sid, path)` triples:
`candidates.sort(reverse=True)`. -/
def candGe : Int × String × String → Int × String × String → Bool
  | (m1, s1, p1), (m2, s2, p2) =>
    if m1 ≠ m2 then decide (m2 < m1)
    else if s1 ≠ s2 then charListLt s2.data s1.data
    else !(charListLt p1.data p2.data)

/-- The selection loop of `get_recent_real_claude_sessions`: walk the sorted
candidates, stop once `count` ids are collected, keep only real sessions. -/
def takeRealSessions (fs : RawFS) (count : Int) :
    List (Int × String × String) → List String → Option (List String)
  | [], out => some out
  | (_, sid, path) :: rest, out =>
    if count ≤ (out.length : Int) then some out
    else match is_real_claude_session fs path with
      | none => none
      | some true => takeRealSessions fs count rest (out ++ [sid])
      | some false => takeRealSessions fs count rest out

/-- `get_recent_real_claude_sessions(project_dir, count, claimed_ids)`. -/
def get_recent_real_claude_sessions (fs : RawFS) (project_dir : String)
    (count : Int) (claimed : List Json) : Option (List String) :=
  if count ≤ 0 then some []
  else match fs.listDir project_dir with
    | none => some []
    | some names =>
      takeRealSessions fs count
        ((sessionCandidates fs project_dir names claimed).insertionSort
          (fun a b => candGe a b)) []

/-- Absolute-path components (the `pathlib.Path` normal form of an absolute
working directory). -/
def pathComponents (s : String) : List String :=
  (splitOnChar '/' s.data).filter (· ≠ "")

/-- Join strings with a separator (`sep.join(parts)`). -/
def joinBy (sep : String) : List String → String
  | [] => ""
  | [x] => x
  | x :: rest => x ++ sep ++ joinBy sep rest

/-- `str(path).replace("/", "-")` for the absolute path with the given
components. -/
def encodePath (comps : List String) : String :=
  String.mk (("/" ++ joinBy "/" comps).data.map
    fun c => if c = '/' then '-' else c)

/-- The parent walk of `find_claude_project_dir`, structured over the
reversed component list (each step drops the last path component). -/
def findProjDirGo (fs : RawFS) (projects_dir : String) :
    List String → Option String
  | [] =>
    let candidate := projects_dir ++ "/" ++ encodePath []
    if fs.isDir candidate then some candidate else none
  | c :: rest =>
    let candidate := projects_dir ++ "/" ++ encodePath ((c :: rest).reverse)
    if fs.isDir candidate then some candidate
    else findProjDirGo fs projects_dir rest

/-- `find_claude_project_dir(cwd, projects_dir)`: walk `cwd` and its parents
until an encoded project directory exists; at the root, give up. -/
def find_claude_project_dir (fs : RawFS) (projects_dir : String)
    (comps : List String) : Option String :=
  findProjDirGo fs projects_dir comps.reverse

/-- Python's substring test `sub in s`. -/
def strContainsSub (s sub : String) : Bool :=
  go s.data sub.data
where
  /-- try every suffix. -/
  go : List Char → List Char → Bool
  | cs, sub =>
    if isPref sub cs then true
    else match cs with
      | [] => false
      | _ :: cs2 => go cs2 sub

/-- The per-entry computation of `resolve_sessions`'s first loop: infer the
tool when absent or unrecognized (from a case-insensitive `codex` substring
of the command line, else claude), take the declared session id or extract
the explicit one from the command line, and extract the replayable flags. -/
def initRecord (raw : Dict) : Record :=
  let toolField := pyLower (pyStrip (pyStrOr (dictGet raw "tool")))
  let args := pyStrOr (dictGet raw "args")
  let tool :=
    if toolField = "claude" ∨ toolField = "codex" then toolField
    else if strContainsSub (pyLower args) "codex" then "codex" else "claude"
  let sid :=
    if tool = "claude" then
      match truthyOpt (dictGet raw "sessionId") with
      | some j => some j
      | none => (extract_claude_resume_id args).map Json.str
    else
      match truthyOpt (dictGet raw "sessionId") with
      | some j => some j
      | none => (extract_codex_resume_id args).map Json.str
  let flags :=
    if tool = "claude" then extract_claude_flags args else extract_codex_flags args
  { tool := tool, sessionId := sid,
    cwd := pyStrOr (dictGet raw "cwd"), flags := flags }

/-- The per-entry half of `resolve_sessions` (its first loop): build one
record per snapshot entry and collect the claimed claude ids. -/
def resolveInitial (snapshot : List Dict) : List Record × List Json :=
  snapshot.foldl (fun acc raw =>
    let r := initRecord raw
    (acc.1 ++ [r],
     if r.tool = "claude" then
       match r.sessionId with
       | some j => acc.2 ++ [j]
       | none => acc.2
     else acc.2)) ([], [])

/-- Append an index to its project-directory group, creating the group at the
end on first sight (Python dict `setdefault` with insertion order). -/
def insertGroup : List (String × List Nat) → String → Nat → List (String × List Nat)
  | [], pd, idx => [(pd, [idx])]
  | (k, v) :: rest, pd, idx =>
    if k = pd then (k, v ++ [idx]) :: rest else (k, v) :: insertGroup rest pd idx

/-- The walk of the grouping loop of `resolve_sessions`, carrying the running
`enumerate` index explicitly. -/
def buildGroupsGo (fs : RawFS) (projects_dir : String) :
    Nat → List Record → List (String × List Nat) → List (String × List Nat)
  | _, [], groups => groups
  | idx, sess :: rest, groups =>
    buildGroupsGo fs projects_dir (idx + 1) rest
      (if sess.tool = "claude" ∧ sess.sessionId = none then
        match find_claude_project_dir fs projects_dir (pathComponents sess.cwd) with
        | some pd => insertGroup groups pd idx
        | none => groups
      else groups)

/-- The grouping half of `resolve_sessions`: indices of unresolved claude
records, grouped by resolved project directory in encounter order. -/
def buildGroups (fs : RawFS) (projects_dir : String) (sessions : List Record) :
    List (String × List Nat) :=
  buildGroupsGo fs projects_dir 0 sessions []

/-- Overwrite the session id of the record at an index. -/
def setSidAt : List Record → Nat → String → List Record
  | [], _, _ => []
  | r :: rest, 0, sid => { r with sessionId := some (.str sid) } :: rest
  | r :: rest, n + 1, sid => r :: setSidAt rest n sid

/-- The resolution half of `resolve_sessions`: per project-directory group,
fetch recent real unclaimed sessions and assign them positionally, claiming
each assigned id. -/
def applyGroups (fs : RawFS) :
    List (String × List Nat) → List Record → List Json → Option (List Record)
  | [], sessions, _ => some sessions
  | (pd, idxs) :: rest, sessions, claimed =>
    match get_recent_real_claude_sessions fs pd (idxs.length : Int) claimed with
    | none => none
    | some found =>
      let sessions2 := (idxs.zip found).foldl (fun ss p => setSidAt ss p.1 p.2) sessions
      applyGroups fs rest sessions2 (claimed ++ found.map Json.str)

/-- `resolve_sessions(snapshot, claude_projects_dir)`. -/
def resolve_sessions (fs : RawFS) (snapshot : List Dict)
    (claude_projects_dir : String) : Option (List Record) :=
  let init := resolveInitial snapshot
  applyGroups fs (buildGroups fs claude_projects_dir init.1) init.1 init.2

/-! ## Auxiliary notions used by the statements -/

/-- The Python dict a resolved session record literally is (the resolver and
the restore path exchange records as plain dicts). -/
def Record.toDict (r : Record) : Dict :=
  [("tool", .str r.tool),
   ("sessionId", match r.sessionId with | some j => j | none => .null),
   ("cwd", .str r.cwd),
   ("flags", .arr (r.flags.map .str))]

/-- The first non-option token of a codex command line, as the specification
describes it: walk the tokens, skipping option tokens and additionally the
value token of a value-bearing option. -/
def firstSubcommandTok : List String → Option String
  | [] => none
  | t :: rest =>
    if strStartsWith t "-" then
      if t ∈ CODEX_OPTS_WITH_VALUE then
        match rest with
        | _ :: rest2 => firstSubcommandTok rest2
        | [] => none
      else firstSubcommandTok rest
    else some t

/-- The shape every extracted flag sequence has: a sequence of option-like
tokens outside the skip set, where a non-option token can only occur as the
value immediately following a value-bearing option. -/
inductive FlagShape (skipTokens optsWithValue : List String) : List String → Prop
  | nil : FlagShape skipTokens optsWithValue []
  | opt (t : String) (rest : List String) :
      strStartsWith t "-" = true → t ∉ skipTokens →
      FlagShape skipTokens optsWithValue rest →
      FlagShape skipTokens optsWithValue (t :: rest)
  | optVal (t v : String) (rest : List String) :
      strStartsWith t "-" = true → t ∉ skipTokens → t ∈ optsWithValue →
      strStartsWith v "-" = false →
      FlagShape skipTokens optsWithValue rest →
      FlagShape skipTokens optsWithValue (t :: v :: rest)

/-- All record indices collected in a project-directory group list. -/
def groupIdxs : List (String × List Nat) → List Nat
  | [] => []
  | g :: rest => g.2 ++ groupIdxs rest

/-- Apply a list of positional session-id assignments to the record list. -/
def applyAsn (asn : List (Nat × String)) (sessions : List Record) : List Record :=
  asn.foldl (fun ss p => setSidAt ss p.1 p.2) sessions

/-- A one-file project directory: the concrete filesystem used to exercise
the log-scan resolver. -/
def fsW : RawFS where
  isDir := fun d => d = "p"
  listDir := fun d => if d = "p" then some ["s.jsonl"] else none
  mtime := fun q => if q = "p/s.jsonl" then some 5 else none
  fileLines := fun q =>
    if q = "p/s.jsonl" then some [.val (.obj [("type", .str "user")])] else none

/-! ## Claim C7: the concrete tool-A scenario -/

/-- C7: for the command line
`claude --resume 904135b4-8584-42dd-aeb9-08b920d0e02e --model sonnet`,
flag extraction returns exactly `["--model", "sonnet"]`, explicit-id
resolution returns exactly the UUID, and rebuilding the argv from the
resulting record returns
`["claude", "--resume", <uuid>, "--model", "sonnet"]`. -/
theorem c7_claude_scenario :
    extract_claude_flags
        "claude --resume 904135b4-8584-42dd-aeb9-08b920d0e02e --model sonnet"
      = ["--model", "sonnet"]
    ∧ extract_claude_resume_id
        "claude --resume 904135b4-8584-42dd-aeb9-08b920d0e02e --model sonnet"
      = some "904135b4-8584-42dd-aeb9-08b920d0e02e"
    ∧ build_restore_argv (Record.toDict
        { tool := "claude"
          sessionId := some (.str "904135b4-8584-42dd-aeb9-08b920d0e02e")
          cwd := "/tmp/project"
          flags := ["--model", "sonnet"] })
      = [.str "claude", .str "--resume",
         .str "904135b4-8584-42dd-aeb9-08b920d0e02e",
         .str "--model", .str "sonnet"] :=
  ⟨by decide, by decide, by decide⟩

/-! ## Claim C2: multiplexer fields in normalization

The claim (and `tests/test_cmux.py`) expect `normalize_restore_entry` to pass
the multiplexer addressing fields through and to coerce `surfaceIndex`; the
function in `session_restore_core.py` returns only the four keys `tool`,
`sessionId`, `cwd` and `flags`, dropping every multiplexer field. -/

/-- C2: evaluating the code at the failing input of
`test_normalize_passes_through_cmux_metadata`: the result holds exactly the
four core fields (the `Record` type of the code), so `terminal`,
`workspaceName`, `workspaceId`, `surfaceId` and `surfaceIndex` are all
dropped rather than passed through, and no `surfaceIndex` coercion to `0`
ever happens. -/
theorem c2_code_drops_multiplexer_fields :
    normalize_restore_entry
        [("tool", .str "claude"),
         ("sessionId", .str "904135b4-8584-42dd-aeb9-08b920d0e02e"),
         ("cwd", .str "/tmp/proj"),
         ("flags", .arr [.str "--model", .str "sonnet"]),
         ("terminal", .str "cmux"),
         ("workspaceName", .str "my-project"),
         ("workspaceId", .str "ws-uuid-1"),
         ("surfaceId", .str "sf-uuid-1"),
         ("surfaceIndex", .num 2)]
      = { tool := "claude"
          sessionId := some (.str "904135b4-8584-42dd-aeb9-08b920d0e02e")
          cwd := "/tmp/proj"
          flags := ["--model", "sonnet"] } := by
  decide

/-! ## Claim C1: codex relaunch without a session id -/

/-- C1 counterexample: a codex record without a session id does not rebuild
to the bare `["codex", ...flags]` the claim states; the code inserts the
synthetic most-recent directive `resume --last`. -/
theorem c1_counterexample :
    build_restore_argv
        [("tool", .str "codex"), ("cwd", .str "/tmp/project"),
         ("flags", .arr [.str "--model", .str "gpt-5"])]
      = [.str "codex", .str "resume", .str "--last",
         .str "--model", .str "gpt-5"]
    ∧ build_restore_argv
        [("tool", .str "codex"), ("cwd", .str "/tmp/project"),
         ("flags", .arr [.str "--model", .str "gpt-5"])]
      ≠ [.str "codex", .str "--model", .str "gpt-5"] :=
  ⟨by decide, by decide⟩

/-- C1 (amended): for every session record of tool codex whose sessionId is
absent, `build_restore_argv` returns exactly
`["codex", "resume", "--last", ...flags]` — a synthetic resume-most-recent
fallback, not a bare relaunch. -/
theorem c1_codex_absent_id_uses_last (entry : Dict)
    (htool : (normalize_restore_entry entry).tool = "codex")
    (hsid : (normalize_restore_entry entry).sessionId = none) :
    build_restore_argv entry =
      [.str "codex", .str "resume", .str "--last"]
        ++ (normalize_restore_entry entry).flags.map .str := by
  unfold build_restore_argv
  simp only [htool, hsid]
  simp

/-- C1 witness: the amended statement at the counterexample entry. -/
theorem c1_codex_absent_id_uses_last_witness :
    build_restore_argv
        [("tool", .str "codex"), ("cwd", .str "/tmp"),
         ("flags", .arr [.str "--model", .str "gpt-5"])]
      = [.str "codex", .str "resume", .str "--last"]
        ++ (normalize_restore_entry
            [("tool", .str "codex"), ("cwd", .str "/tmp"),
             ("flags", .arr [.str "--model", .str "gpt-5"])]).flags.map .str :=
  c1_codex_absent_id_uses_last _ (by decide) (by decide)

/-! ## Claim C3: accepted restore-file shapes -/

/-- C3 counterexample: a versioned envelope `{version, sessions}` holding one
loadable record loads as the empty list, while the same record in the bare
array form loads fine — the reader does not accept the envelope shape. -/
theorem c3_counterexample :
    load_restore_file (.ok (.obj
        [("version", .num 1),
         ("sessions", .arr [.obj
            [("tool", .str "claude"), ("sessionId", .str "aaa"),
             ("cwd", .str "/tmp"), ("flags", .arr [])]])]))
      = []
    ∧ load_restore_file (.ok (.arr [.obj
        [("tool", .str "claude"), ("sessionId", .str "aaa"),
         ("cwd", .str "/tmp"), ("flags", .arr [])]]))
      = [{ tool := "claude", sessionId := some (.str "aaa"),
           cwd := "/tmp", flags := [] }] :=
  ⟨by decide, by decide⟩

/-- C3 (amended): loading accepts only the bare JSON array shape.  Malformed
input (unreadable file or invalid JSON) yields an empty list and never
raises; every envelope object — well-versioned or not — also yields an empty
list; a bare array yields its well-formed records: each dict item whose
normalized cwd is non-empty appears normalized in the result, and nothing
else does. -/
theorem c3_only_bare_arrays_load :
    (∀ e : Unit, load_restore_file (.error e) = [])
    ∧ (∀ fields : List (String × Json), load_restore_file (.ok (.obj fields)) = [])
    ∧ (∀ (items : List Json) (fields : List (String × Json)),
        .obj fields ∈ items → (normalize_restore_entry fields).cwd ≠ "" →
        normalize_restore_entry fields ∈ load_restore_file (.ok (.arr items)))
    ∧ (∀ (items : List Json) (r : Record),
        r ∈ load_restore_file (.ok (.arr items)) →
        ∃ fields, .obj fields ∈ items ∧ r = normalize_restore_entry fields
          ∧ r.cwd ≠ "") := by
  refine ⟨fun e => rfl, fun fields => rfl, ?_, ?_⟩
  · intro items fields hmem hcwd
    simp only [load_restore_file]
    exact List.mem_filterMap.mpr ⟨.obj fields, hmem, by simp [hcwd]⟩
  · intro items r hmem
    simp only [load_restore_file] at hmem
    rcases List.mem_filterMap.mp hmem with ⟨item, hitem, hf⟩
    cases item with
    | obj fields =>
      simp only [] at hf
      split at hf
      · exact ⟨fields, hitem, (Option.some.inj hf).symm, by
          have := Option.some.inj hf; rw [← this]; assumption⟩
      · exact absurd hf (by simp)
    | null => exact absurd hf (by simp)
    | bool b => exact absurd hf (by simp)
    | num n => exact absurd hf (by simp)
    | str s => exact absurd hf (by simp)
    | arr l => exact absurd hf (by simp)

/-- C3 witness: the bare-array acceptance applied at a concrete array. -/
theorem c3_only_bare_arrays_load_witness :
    normalize_restore_entry [("tool", .str "codex"), ("cwd", .str "/w")]
      ∈ load_restore_file (.ok (.arr
          [.str "junk", .obj [("tool", .str "codex"), ("cwd", .str "/w")]])) :=
  c3_only_bare_arrays_load.2.2.1
    [.str "junk", .obj [("tool", .str "codex"), ("cwd", .str "/w")]]
    [("tool", .str "codex"), ("cwd", .str "/w")]
    (by decide) (by decide)

/-! ## Claim C9: loaded records always carry a working directory -/

/-- C9: every session record returned by `load_restore_file` has a non-empty
cwd — records with an empty or missing cwd are dropped during load. -/
theorem c9_loaded_records_have_cwd (input : Except Unit Json) (r : Record)
    (h : r ∈ load_restore_file input) : r.cwd ≠ "" := by
  cases input with
  | error e => simp [load_restore_file] at h
  | ok j =>
    cases j with
    | arr items =>
      simp only [load_restore_file] at h
      rcases List.mem_filterMap.mp h with ⟨item, hitem, hf⟩
      cases item with
      | obj fields =>
        simp only [] at hf
        split at hf
        · rw [← Option.some.inj hf]; assumption
        · exact absurd hf (by simp)
      | null => exact absurd hf (by simp)
      | bool b => exact absurd hf (by simp)
      | num n => exact absurd hf (by simp)
      | str s => exact absurd hf (by simp)
      | arr l => exact absurd hf (by simp)
    | null => simp [load_restore_file] at h
    | bool b => simp [load_restore_file] at h
    | num n => simp [load_restore_file] at h
    | str s => simp [load_restore_file] at h
    | obj fields => simp [load_restore_file] at h

/-- C9 witness: the invariant applied to a concrete loaded record. -/
theorem c9_loaded_records_have_cwd_witness :
    ({ tool := "claude", sessionId := some (.str "aaa"), cwd := "/tmp",
       flags := [] } : Record).cwd ≠ "" :=
  c9_loaded_records_have_cwd
    (.ok (.arr [.obj [("tool", .str "claude"), ("sessionId", .str "aaa"),
                      ("cwd", .str "/tmp")]]))
    _ (by decide)

/-! ## Claim C10: tool inference in `resolve_sessions` -/

theorem resolveInitial_foldl (snapshot : List Dict)
    (acc : List Record × List Json) :
    (snapshot.foldl (fun acc raw =>
      let r := initRecord raw
      (acc.1 ++ [r],
       if r.tool = "claude" then
         match r.sessionId with
         | some j => acc.2 ++ [j]
         | none => acc.2
       else acc.2)) acc).1 = acc.1 ++ snapshot.map initRecord := by
  induction snapshot generalizing acc with
  | nil => simp
  | cons raw rest ih =>
    simp only [List.foldl_cons, List.map_cons]
    rw [ih]
    simp

theorem resolveInitial_fst (snapshot : List Dict) :
    (resolveInitial snapshot).1 = snapshot.map initRecord := by
  have := resolveInitial_foldl snapshot ([], [])
  simpa [resolveInitial] using this

theorem setSidAt_get_tool (ss : List Record) (n : Nat) (sid : String) (i : Nat) :
    ((setSidAt ss n sid).get? i).map Record.tool = (ss.get? i).map Record.tool := by
  induction ss generalizing n i with
  | nil => simp [setSidAt]
  | cons r rest ih =>
    cases n with
    | zero =>
      cases i with
      | zero => simp [setSidAt]
      | succ i => simp [setSidAt]
    | succ n =>
      cases i with
      | zero => simp [setSidAt]
      | succ i => simpa [setSidAt] using ih n i

theorem assignFold_get_tool (ps : List (Nat × String)) (ss : List Record) (i : Nat) :
    ((ps.foldl (fun ss p => setSidAt ss p.1 p.2) ss).get? i).map Record.tool
      = (ss.get? i).map Record.tool := by
  induction ps generalizing ss with
  | nil => simp
  | cons p rest ih =>
    simp only [List.foldl_cons]
    rw [ih]
    exact setSidAt_get_tool ss p.1 p.2 i

theorem applyGroups_get_tool (fs : RawFS) :
    ∀ (gs : List (String × List Nat)) (ss : List Record) (claimed : List Json)
      (out : List Record), applyGroups fs gs ss claimed = some out →
      ∀ i, (out.get? i).map Record.tool = (ss.get? i).map Record.tool := by
  intro gs
  induction gs with
  | nil =>
    intro ss claimed out h i
    simp only [applyGroups] at h
    rw [Option.some.inj h]
  | cons g rest ih =>
    intro ss claimed out h i
    simp only [applyGroups] at h
    rcases hr : get_recent_real_claude_sessions fs g.1 (g.2.length : Int) claimed
      with _ | found
    · rw [hr] at h; exact absurd h (by simp)
    · rw [hr] at h
      have := ih _ _ out h i
      rw [this]
      exact assignFold_get_tool (g.2.zip found) ss i

/-- C10: a raw snapshot entry whose tool field is absent or not one of the
two recognized tools is classified by `resolve_sessions` from its command
line: a case-insensitive `codex` substring anywhere makes it codex,
otherwise it defaults to claude. -/
theorem c10_tool_inference (fs : RawFS) (snapshot : List Dict) (pdir : String)
    (out : List Record) (i : Nat) (raw : Dict)
    (hout : resolve_sessions fs snapshot pdir = some out)
    (hraw : snapshot.get? i = some raw)
    (hbad1 : pyLower (pyStrip (pyStrOr (dictGet raw "tool"))) ≠ "claude")
    (hbad2 : pyLower (pyStrip (pyStrOr (dictGet raw "tool"))) ≠ "codex") :
    (out.get? i).map Record.tool =
      some (if strContainsSub (pyLower (pyStrOr (dictGet raw "args"))) "codex"
            then "codex" else "claude") := by
  simp only [resolve_sessions] at hout
  have h1 := applyGroups_get_tool fs _ _ _ _ hout i
  rw [h1, resolveInitial_fst, List.get?_map, hraw]
  simp [initRecord, hbad1, hbad2]

/-- C10 witness: a concrete snapshot entry with no tool field resolves to
codex because its command line mentions codex. -/
theorem c10_tool_inference_witness :
    (([{ tool := "codex", sessionId := none, cwd := "/x",
         flags := ["--model", "gpt-5"] }] : List Record).get? 0).map Record.tool
      = some (if strContainsSub
          (pyLower (pyStrOr (dictGet
            [("cwd", .str "/x"), ("args", .str "codex --model gpt-5")] "args")))
          "codex"
        then "codex" else "claude") :=
  c10_tool_inference
    { isDir := fun _ => false, listDir := fun _ => none,
      mtime := fun _ => none, fileLines := fun _ => none }
    [[("cwd", .str "/x"), ("args", .str "codex --model gpt-5")]]
    "/p" _ 0 _ (by decide) (by decide) (by decide) (by decide)

/-! ## Claim C8: the codex interactivity classifier -/

theorem codexScan_eq_classify :
    ∀ (n : Nat) (l : List String), l.length ≤ n →
    codexScan l =
      (match firstSubcommandTok l with
       | some t =>
         if t ∈ CODEX_INTERACTIVE_SUBCOMMANDS then true
         else if t ∈ CODEX_NON_INTERACTIVE_SUBCOMMANDS then false
         else true
       | none => true) := by
  intro n
  induction n with
  | zero =>
    intro l hl
    rw [Nat.le_zero, List.length_eq_zero] at hl
    subst hl
    simp [codexScan, firstSubcommandTok]
  | succ n ih =>
    intro l hl
    cases l with
    | nil => simp [codexScan, firstSubcommandTok]
    | cons t rest =>
      rw [codexScan.eq_def, firstSubcommandTok.eq_def]
      by_cases hd : strStartsWith t "-" = true
      · by_cases hv : t ∈ CODEX_OPTS_WITH_VALUE
        · cases rest with
          | nil => simp [hd, hv, firstSubcommandTok]
          | cons u rest2 =>
            have hrec := ih rest2 (by simp at hl ⊢; omega)
            simp [hd, hv, hrec]
        · have hrec := ih rest (by simp at hl ⊢; omega)
          simp [hd, hv, hrec]
      · simp [hd]

/-- C8: for every tool-B command line (one that has at least one token), the
interactive classifier skips leading option tokens — consuming the value of
a value-bearing option — and decides on the first non-option token: a listed
interactive subcommand yields true, a listed non-interactive subcommand
yields false, any other bare token yields true, and no subcommand at all
yields true. -/
theorem c8_codex_interactive_classifier (args : String)
    (h : parse_shell_tokens args ≠ []) :
    codex_is_interactive args =
      (match firstSubcommandTok
          (stripExecutable "codex" (parse_shell_tokens args)) with
       | some t =>
         if t ∈ CODEX_INTERACTIVE_SUBCOMMANDS then true
         else if t ∈ CODEX_NON_INTERACTIVE_SUBCOMMANDS then false
         else true
       | none => true) := by
  unfold codex_is_interactive
  rcases hp : parse_shell_tokens args with _ | ⟨t, rest⟩
  · exact absurd hp h
  · exact codexScan_eq_classify (stripExecutable "codex" (t :: rest)).length _
      (Nat.le_refl _)

/-- C8 witness: the classifier equation at concrete interactive,
non-interactive and bare-prompt command lines. -/
theorem c8_codex_interactive_classifier_witness :
    (codex_is_interactive "codex --yolo resume" =
      (match firstSubcommandTok
          (stripExecutable "codex" (parse_shell_tokens "codex --yolo resume")) with
       | some t =>
         if t ∈ CODEX_INTERACTIVE_SUBCOMMANDS then true
         else if t ∈ CODEX_NON_INTERACTIVE_SUBCOMMANDS then false
         else true
       | none => true))
    ∧ codex_is_interactive "codex --yolo resume" = true
    ∧ codex_is_interactive "codex exec hi" = false
    ∧ codex_is_interactive "codex --model gpt-5" = true
    ∧ codex_is_interactive "codex write me a poem" = true :=
  ⟨c8_codex_interactive_classifier "codex --yolo resume" (by decide),
   by decide, by decide, by decide, by decide⟩

/-! ## Claim C4: extracted flags carry no resume/continue directives -/

theorem extractTokens_flagShape :
    ∀ (n : Nat) (sk ov su l : List String), l.length ≤ n →
      FlagShape sk ov (extractTokens sk ov su l) := by
  intro n
  induction n with
  | zero =>
    intro sk ov su l hl
    rw [Nat.le_zero, List.length_eq_zero] at hl
    subst hl
    simp only [extractTokens]
    exact .nil
  | succ n ih =>
    intro sk ov su l hl
    match l with
    | [] =>
      simp only [extractTokens]
      exact .nil
    | [t] =>
      simp only [extractTokens]
      by_cases h1 : t ∈ sk
      · simp only [if_pos h1]; exact .nil
      · simp only [if_neg h1]
        by_cases h2 : t ∈ su
        · simp only [if_pos h2]; exact .nil
        · simp only [if_neg h2]
          by_cases h3 : strStartsWith t "-" = true
          · simp only [if_pos h3]; exact .opt t [] h3 h1 .nil
          · simp only [if_neg h3]; exact .nil
    | t :: u :: rest2 =>
      have hl2 : rest2.length ≤ n := by simp at hl; omega
      have hl1 : (u :: rest2).length ≤ n := by simp at hl ⊢; omega
      simp only [extractTokens]
      by_cases h1 : t ∈ sk
      · simp only [if_pos h1]
        by_cases h2 : t ∈ ov
        · simp only [if_pos h2]; exact ih sk ov su rest2 hl2
        · simp only [if_neg h2]; exact ih sk ov su (u :: rest2) hl1
      · simp only [if_neg h1]
        by_cases h2 : t ∈ su
        · simp only [if_pos h2]
          by_cases h3 : looksLikeUuid u = true
          · simp only [if_pos h3]; exact ih sk ov su rest2 hl2
          · simp only [if_neg h3]; exact ih sk ov su (u :: rest2) hl1
        · simp only [if_neg h2]
          by_cases h3 : strStartsWith t "-" = true
          · simp only [if_pos h3]
            by_cases h4 : t ∈ ov
            · simp only [if_pos h4]
              by_cases h5 : ¬ strStartsWith u "-" = true
              · simp only [if_pos h5]
                exact .optVal t u _ h3 h1 h4 (by simpa using h5)
                  (ih sk ov su rest2 hl2)
              · simp only [if_neg h5]
                exact .opt t _ h3 h1 (ih sk ov su (u :: rest2) hl1)
            · simp only [if_neg h4]
              exact .opt t _ h3 h1 (ih sk ov su (u :: rest2) hl1)
          · simp only [if_neg h3]
            exact ih sk ov su (u :: rest2) hl1

theorem FlagShape.mem_not_skip {sk ov : List String}
    (hskdash : ∀ s ∈ sk, strStartsWith s "-" = true) :
    ∀ {l}, FlagShape sk ov l → ∀ t ∈ l, t ∉ sk := by
  intro l h
  induction h with
  | nil => simp
  | opt t0 rest hd hs _ ih =>
    intro t ht
    rcases List.mem_cons.mp ht with h1 | h1
    · subst h1; exact hs
    · exact ih t h1
  | optVal t0 v rest hd hs hv hu _ ih =>
    intro t ht
    rcases List.mem_cons.mp ht with h1 | h1
    · subst h1; exact hs
    · rcases List.mem_cons.mp h1 with h2 | h2
      · subst h2
        intro hmem
        have := hskdash t hmem
        rw [hu] at this
        exact absurd this (by decide)
      · exact ih t h2

theorem FlagShape.get_nonDash {sk ov : List String} :
    ∀ {l}, FlagShape sk ov l → ∀ i t, l.get? i = some t →
      strStartsWith t "-" = false →
      ∃ p, 1 ≤ i ∧ l.get? (i - 1) = some p ∧ p ∈ ov := by
  intro l h
  induction h with
  | nil => intro i t ht _; simp at ht
  | opt t0 rest hd _ _ ih =>
    intro i t ht hnd
    cases i with
    | zero =>
      simp at ht
      subst ht
      rw [hd] at hnd
      exact absurd hnd (by decide)
    | succ j =>
      have ht' : rest.get? j = some t := by simpa using ht
      rcases ih j t ht' hnd with ⟨p, h1, h2, h3⟩
      obtain ⟨k, rfl⟩ : ∃ k, j = k + 1 := ⟨j - 1, by omega⟩
      refine ⟨p, by omega, ?_, h3⟩
      simpa using h2
  | optVal t0 v rest hd _ hv _ _ ih =>
    intro i t ht hnd
    cases i with
    | zero =>
      simp at ht
      subst ht
      rw [hd] at hnd
      exact absurd hnd (by decide)
    | succ j =>
      cases j with
      | zero => exact ⟨t0, by omega, by simp, hv⟩
      | succ k =>
        have ht' : rest.get? k = some t := by simpa using ht
        rcases ih k t ht' hnd with ⟨p, h1, h2, h3⟩
        obtain ⟨m, rfl⟩ : ∃ m, k = m + 1 := ⟨k - 1, by omega⟩
        refine ⟨p, by omega, ?_, h3⟩
        simpa using h2

theorem looksLikeUuid_not_dash (t : String) (h : looksLikeUuid t = true) :
    strStartsWith t "-" = false := by
  by_contra hc
  have hc' : strStartsWith t "-" = true := by
    revert hc; cases strStartsWith t "-" <;> simp
  obtain ⟨cs, hdata⟩ : ∃ cs, t.data = '-' :: cs := by
    revert hc'
    unfold strStartsWith
    cases hd : t.data with
    | nil => simp [isPref]
    | cons c cs' =>
      intro hh
      simp only [show ("-" : String).data = ['-'] from rfl, isPref] at hh
      rcases Bool.and_eq_true .. ▸ hh with ⟨hh1, _⟩
      exact ⟨cs', by rw [← decide_eq_true_eq.mp hh1]⟩
  unfold looksLikeUuid at h
  rw [hdata] at h
  simp only [splitOnChar, if_pos rfl] at h
  rcases hsp : splitOnChar '-' cs with _ | ⟨a, _ | ⟨b, _ | ⟨c2, _ | ⟨d, _ | ⟨e, rest⟩⟩⟩⟩⟩ <;>
    rw [hsp] at h <;> simp at h

/-- C4 counterexample: on the well-formed command line
`codex --model resume`, the extracted codex flags contain the interactive
subcommand token `resume` (as the value of `--model`), so the flag sequence
is not literally free of tool B's interactive subcommand tokens. -/
theorem c4_counterexample :
    extract_codex_flags "codex --model resume" = ["--model", "resume"]
    ∧ "resume" ∈ CODEX_INTERACTIVE_SUBCOMMANDS :=
  ⟨by decide, by decide⟩

/-- C4 (amended): for every command-line string, the extracted tool-A flags
contain none of `--resume`, `-r`, `--continue`, `-c`, and the extracted
tool-B flags contain neither `--last` nor `--all`; moreover a canonical-UUID
token (either tool) or an interactive subcommand token (tool B) can appear
in the extracted flags only as the value immediately following a
value-bearing option — never in directive position.  (The unamended claim
fails only because such a token may appear as an option value, as the
counterexample shows.) -/
theorem c4_no_directives_in_flags (args : String) :
    (∀ t ∈ extract_claude_flags args,
        t ∉ (["--resume", "-r", "--continue", "-c"] : List String))
    ∧ (∀ t ∈ extract_codex_flags args, t ∉ (["--last", "--all"] : List String))
    ∧ (∀ i t, (extract_claude_flags args).get? i = some t →
        looksLikeUuid t = true →
        ∃ p, 1 ≤ i ∧ (extract_claude_flags args).get? (i - 1) = some p ∧
          p ∈ CLAUDE_OPTS_WITH_VALUE)
    ∧ (∀ i t, (extract_codex_flags args).get? i = some t →
        looksLikeUuid t = true ∨ t ∈ CODEX_INTERACTIVE_SUBCOMMANDS →
        ∃ p, 1 ≤ i ∧ (extract_codex_flags args).get? (i - 1) = some p ∧
          p ∈ CODEX_OPTS_WITH_VALUE) := by
  have hshape1 : FlagShape ["--resume", "-r", "--continue", "-c"]
      CLAUDE_OPTS_WITH_VALUE (extract_claude_flags args) :=
    extractTokens_flagShape
      (stripExecutable "claude" (parse_shell_tokens args)).length _ _ _ _
      (Nat.le_refl _)
  have hshape2 : FlagShape ["--last", "--all"] CODEX_OPTS_WITH_VALUE
      (extract_codex_flags args) :=
    extractTokens_flagShape
      (stripExecutable "codex" (parse_shell_tokens args)).length _ _ _ _
      (Nat.le_refl _)
  refine ⟨hshape1.mem_not_skip (by decide), hshape2.mem_not_skip (by decide),
    ?_, ?_⟩
  · intro i t ht hu
    exact hshape1.get_nonDash i t ht (looksLikeUuid_not_dash t hu)
  · intro i t ht hu
    apply hshape2.get_nonDash i t ht
    rcases hu with hu | hu
    · exact looksLikeUuid_not_dash t hu
    · simp only [CODEX_INTERACTIVE_SUBCOMMANDS, List.mem_cons,
        List.not_mem_nil, or_false] at hu
      rcases hu with h | h <;> (rw [h]; decide)

/-- C4 witness: the amended statement at concrete inputs — `--model` in the
codex flags is not a directive, and the UUID kept at position 1 of the
claude flags is preceded by the value-bearing option `--model`. -/
theorem c4_no_directives_in_flags_witness :
    ("--model" ∉ (["--last", "--all"] : List String))
    ∧ (∃ p, 1 ≤ 1 ∧
        (extract_claude_flags
          "claude --model 904135b4-8584-42dd-aeb9-08b920d0e02e").get? (1 - 1)
          = some p ∧ p ∈ CLAUDE_OPTS_WITH_VALUE) :=
  ⟨(c4_no_directives_in_flags "codex --model gpt-5").2.1 "--model" (by decide),
   (c4_no_directives_in_flags
      "claude --model 904135b4-8584-42dd-aeb9-08b920d0e02e").2.2.1 1
      "904135b4-8584-42dd-aeb9-08b920d0e02e" (by decide) (by decide)⟩

/-! ## Claim C5: the flag round-trip through `shlex.join` and re-extraction

First the tokenizer inverts the joiner: `shlex.split (shlex.join argv)`
returns `argv` for every argv.  The proof walks the quoted form of each
token through the scanner states. -/

theorem strEq_of_data {a b : String} (h : a.data = b.data) : a = b := by
  cases a; cases b; exact congrArg String.mk h

theorem data_push (s : String) (c : Char) : (s.push c).data = s.data ++ [c] :=
  rfl

theorem data_append (s t : String) : (s ++ t).data = s.data ++ t.data :=
  rfl

theorem data_mk (l : List Char) : (String.mk l).data = l :=
  rfl

theorem shlexSafeChar_not_special (c : Char) (h : shlexSafeChar c = true) :
    c ∉ shlexWhitespace ∧ c ≠ '\'' ∧ c ≠ '"' ∧ c ≠ '\\' := by
  refine ⟨fun hc => ?_, fun hc => ?_, fun hc => ?_, fun hc => ?_⟩
  · simp only [shlexWhitespace, List.mem_cons, List.not_mem_nil, or_false]
      at hc
    rcases hc with h1 | h1 | h1 | h1 <;> (subst h1; exact absurd h (by decide))
  · subst hc; exact absurd h (by decide)
  · subst hc; exact absurd h (by decide)
  · subst hc; exact absurd h (by decide)

theorem shlexScan_step_normal (c : Char) (X : List Char) (tok : String)
    (acc : List String) (st : ScanState) (hst : st = .ground ∨ st = .word)
    (hws : c ∉ shlexWhitespace) (h1 : c ≠ '\'') (h2 : c ≠ '"')
    (h3 : c ≠ '\\') :
    shlexScan (c :: X) st tok acc = shlexScan X .word (tok.push c) acc := by
  rcases hst with h | h <;> subst h <;>
    (rw [shlexScan.eq_def]
     dsimp only
     rw [if_neg hws, if_neg h1, if_neg h2, if_neg h3])

theorem shlexScan_step_squote_open (X : List Char) (tok : String)
    (acc : List String) (st : ScanState) (hst : st = .ground ∨ st = .word) :
    shlexScan ('\'' :: X) st tok acc = shlexScan X .squote tok acc := by
  rcases hst with h | h <;> subst h <;>
    (rw [shlexScan.eq_def]
     dsimp only
     rw [if_neg (by decide), if_pos rfl])

theorem shlexScan_step_squote_close (X : List Char) (tok : String)
    (acc : List String) :
    shlexScan ('\'' :: X) .squote tok acc = shlexScan X .word tok acc := by
  rw [shlexScan.eq_def]
  dsimp only
  rw [if_pos rfl]

theorem shlexScan_step_ws (X : List Char) (tok : String) (acc : List String) :
    shlexScan (' ' :: X) .word tok acc
      = shlexScan X .ground "" (acc ++ [tok]) := by
  rw [shlexScan.eq_def]
  dsimp only
  rw [if_pos (by decide)]

theorem shlexScan_safe_run :
    ∀ (chars rest : List Char) (st : ScanState) (tok : String)
      (acc : List String), st = .ground ∨ st = .word →
      chars ≠ [] → chars.all shlexSafeChar = true →
      shlexScan (chars ++ rest) st tok acc
        = shlexScan rest .word (tok ++ String.mk chars) acc := by
  intro chars
  induction chars with
  | nil => intro rest st tok acc _ hne _; exact absurd rfl hne
  | cons c cs ih =>
    intro rest st tok acc hst _ hsafe
    rw [List.all_cons, Bool.and_eq_true] at hsafe
    obtain ⟨hs1, hs2⟩ := hsafe
    obtain ⟨hws, hq1, hq2, hbs⟩ := shlexSafeChar_not_special c hs1
    rw [List.cons_append,
      shlexScan_step_normal c (cs ++ rest) tok acc st hst hws hq1 hq2 hbs]
    cases cs with
    | nil =>
      show shlexScan rest .word (tok.push c) acc
        = shlexScan rest .word (tok ++ String.mk [c]) acc
      rfl
    | cons c2 cs2 =>
      rw [ih rest .word (tok.push c) acc (Or.inr rfl) (by simp) hs2]
      congr 1
      exact strEq_of_data (by simp [data_push, data_append, data_mk])

theorem shlexScan_squote_run :
    ∀ (p X : List Char) (tok : String) (acc : List String),
      (∀ c ∈ p, c ≠ '\'') →
      shlexScan (p ++ X) .squote tok acc
        = shlexScan X .squote (tok ++ String.mk p) acc := by
  intro p
  induction p with
  | nil =>
    intro X tok acc _
    show shlexScan X .squote tok acc = shlexScan X .squote (tok ++ "") acc
    congr 1
    exact strEq_of_data (by simp [data_append])
  | cons c cs ih =>
    intro X tok acc hq
    have hc : c ≠ '\'' := hq c (List.mem_cons_self c cs)
    rw [List.cons_append, shlexScan.eq_def]
    dsimp only
    rw [if_neg hc,
      ih X (tok.push c) acc (fun d hd => hq d (List.mem_cons_of_mem c hd))]
    congr 1
    exact strEq_of_data (by simp [data_push, data_append, data_mk])

theorem quoteBody_append (a b : List Char) :
    quoteBody (a ++ b) = quoteBody a ++ quoteBody b := by
  induction a with
  | nil => rfl
  | cons c cs ih => simp [quoteBody, ih]

theorem quoteBody_noQuote (p : List Char) (h : ∀ c ∈ p, c ≠ '\'') :
    quoteBody p = p := by
  induction p with
  | nil => rfl
  | cons c cs ih =>
    rw [quoteBody, quoteEsc, if_neg (h c (List.mem_cons_self c cs))]
    rw [ih (fun d hd => h d (List.mem_cons_of_mem c hd))]
    rfl

theorem dropWhile_head_false {α : Type} (f : α → Bool) :
    ∀ (l : List α) (q : α) (cs : List α),
      List.dropWhile f l = q :: cs → f q = false := by
  intro l
  induction l with
  | nil => intro q cs h; simp [List.dropWhile] at h
  | cons c l2 ih =>
    intro q cs h
    rw [List.dropWhile] at h
    by_cases hf : f c = true
    · rw [hf] at h; exact ih q cs h
    · rw [Bool.not_eq_true] at hf
      rw [hf] at h
      simp at h
      rw [← h.1]
      exact hf

theorem shlexScan_quoted_chain :
    ∀ (n : Nat) (chars : List Char), chars.length ≤ n →
    ∀ (rest : List Char) (tok : String) (acc : List String),
      shlexScan (quoteBody chars ++ '\'' :: rest) .squote tok acc
        = shlexScan rest .word (tok ++ String.mk chars) acc := by
  intro n
  induction n with
  | zero =>
    intro chars hl rest tok acc
    rw [Nat.le_zero, List.length_eq_zero] at hl
    subst hl
    show shlexScan rest .word tok acc = _
    congr 1
    exact strEq_of_data (by simp [data_append])
  | succ n ih =>
    intro chars hl rest tok acc
    cases hdw : chars.dropWhile (fun c => c != '\'') with
    | nil =>
      have hall : ∀ c ∈ chars, c ≠ '\'' := by
        intro c hc
        have := List.dropWhile_eq_nil_iff.mp hdw c hc
        simpa using this
      rw [quoteBody_noQuote _ hall, shlexScan_squote_run _ _ _ _ hall]
      show shlexScan rest .word _ acc = _
      rfl
    | cons q cs =>
      set p := chars.takeWhile (fun c => c != '\'') with hp
      have hsplit : p ++ chars.dropWhile (fun c => c != '\'') = chars := by
        rw [hp]; exact List.takeWhile_append_dropWhile _ _
      have htake : ∀ c ∈ p, c ≠ '\'' := by
        intro c hc
        have := List.mem_takeWhile_imp hc
        simpa using this
      have hq : q = '\'' := by
        have := dropWhile_head_false (fun c => c != '\'') chars q cs hdw
        simpa using this
      subst hq
      have hchars : chars = p ++ '\'' :: cs := by
        rw [← hdw, hsplit]
      have hlen : cs.length ≤ n := by
        have h1 : (p ++ '\'' :: cs).length = chars.length := by
          rw [← hchars]
        simp at h1
        omega
      rw [hchars, quoteBody_append, quoteBody_noQuote _ htake]
      have hassoc : (p ++ quoteBody ('\'' :: cs)) ++ '\'' :: rest
          = p ++ (quoteBody ('\'' :: cs) ++ '\'' :: rest) := by
        simp [List.append_assoc]
      rw [hassoc, shlexScan_squote_run _ _ _ _ htake]
      show shlexScan (quoteBody cs ++ '\'' :: rest) .squote
        ((tok ++ String.mk p).push '\'') acc = _
      rw [ih cs hlen rest _ acc]
      congr 1
      exact strEq_of_data (by simp [data_push, data_append, data_mk])

theorem shlexScan_quote_token (t : String) (X : List Char)
    (acc : List String) :
    shlexScan ((shlexQuote t).data ++ X) .ground "" acc
      = shlexScan X .word t acc := by
  unfold shlexQuote
  by_cases h0 : t = ""
  · rw [if_pos h0]
    subst h0
    show shlexScan X .word "" acc = _
    rfl
  · rw [if_neg h0]
    by_cases h1 : t.data.all shlexSafeChar = true
    · rw [if_pos h1]
      have hne : t.data ≠ [] := by
        intro hc
        exact h0 (by cases t; simp at hc; rw [hc])
      rw [shlexScan_safe_run t.data X .ground "" acc (Or.inl rfl) hne h1]
      have he : ("" ++ String.mk t.data) = t :=
        strEq_of_data (by simp [data_append, data_mk])
      rw [he]
    · rw [if_neg h1]
      have hform : (("'" ++ String.mk (quoteBody t.data) ++ "'").data ++ X)
          = '\'' :: (quoteBody t.data ++ '\'' :: X) := by
        simp [data_append, data_mk]
      rw [hform]
      show shlexScan (quoteBody t.data ++ '\'' :: X) .squote "" acc = _
      rw [shlexScan_quoted_chain t.data.length t.data (Nat.le_refl _) X "" acc]
      have he : ("" ++ String.mk t.data) = t :=
        strEq_of_data (by simp [data_append, data_mk])
      rw [he]

theorem shlexScan_join :
    ∀ (argv : List String) (acc : List String), argv ≠ [] →
      shlexScan (shellJoinStrs argv).data .ground "" acc
        = some (acc ++ argv) := by
  intro argv
  induction argv with
  | nil => intro acc h; exact absurd rfl h
  | cons t tl ih =>
    intro acc _
    cases tl with
    | nil =>
      show shlexScan (shlexQuote t).data .ground "" acc = _
      have hnil : (shlexQuote t).data = (shlexQuote t).data ++ [] := by simp
      rw [hnil, shlexScan_quote_token t [] acc]
      rfl
    | cons t2 tl2 =>
      show shlexScan (shlexQuote t ++ " " ++ shellJoinStrs (t2 :: tl2)).data
        .ground "" acc = _
      have hdata : (shlexQuote t ++ " " ++ shellJoinStrs (t2 :: tl2)).data
          = (shlexQuote t).data ++ (' ' :: (shellJoinStrs (t2 :: tl2)).data) := by
        simp [data_append]
      rw [hdata, shlexScan_quote_token t _ acc]
      show shlexScan (shellJoinStrs (t2 :: tl2)).data .ground "" (acc ++ [t])
        = _
      rw [ih (acc ++ [t]) (by simp)]
      simp

/-- `parse_shell_tokens` inverts `shlex.join`: splitting a joined argv
recovers it exactly. -/
theorem parse_shell_join (argv : List String) :
    parse_shell_tokens (shellJoinStrs argv) = argv := by
  cases argv with
  | nil => rfl
  | cons t tl =>
    unfold parse_shell_tokens
    have hj := shlexScan_join (t :: tl) [] (by simp)
    by_cases hempty : shellJoinStrs (t :: tl) = ""
    · rw [hempty] at hj
      simp [shlexScan] at hj
    · rw [if_neg hempty]
      unfold shlexSplit
      rw [hj]
      simp

theorem jsonStrs_map_str (l : List String) :
    jsonStrs (l.map .str) = some l := by
  induction l with
  | nil => rfl
  | cons t tl ih => simp [jsonStrs, ih]

theorem extractTokens_skip1 (sk ov su : List String) (t : String)
    (l : List String) (h1 : t ∈ sk) (h2 : t ∉ ov) :
    extractTokens sk ov su (t :: l) = extractTokens sk ov su l := by
  cases l with
  | nil => simp [extractTokens, h1]
  | cons u l2 =>
    simp only [extractTokens, if_pos h1, if_neg h2]

theorem extractTokens_drop_positional (sk ov su : List String) (u : String)
    (l : List String) (h1 : strStartsWith u "-" = false) (h2 : u ∉ sk)
    (h3 : u ∉ su) :
    extractTokens sk ov su (u :: l) = extractTokens sk ov su l := by
  cases l with
  | nil =>
    simp only [extractTokens, if_neg h2, if_neg h3, h1]
    rfl
  | cons v l2 =>
    simp only [extractTokens, if_neg h2, if_neg h3, h1]
    rfl

theorem extractTokens_skipUuid (sk ov su : List String) (t u : String)
    (l : List String) (h1 : t ∉ sk) (h2 : t ∈ su)
    (h3 : looksLikeUuid u = true) :
    extractTokens sk ov su (t :: u :: l) = extractTokens sk ov su l := by
  simp only [extractTokens, if_neg h1, if_pos h2, h3]
  rfl

theorem extractTokens_skipUuid_miss (sk ov su : List String) (t u : String)
    (l : List String) (h1 : t ∉ sk) (h2 : t ∈ su)
    (h3 : looksLikeUuid u = false) :
    extractTokens sk ov su (t :: u :: l) = extractTokens sk ov su (u :: l) := by
  simp only [extractTokens, if_neg h1, if_pos h2, h3]
  rfl

theorem stripExecutable_match (tool : String) (l : List String)
    (h : basename tool = tool) :
    stripExecutable tool (tool :: l) = l := by
  simp [stripExecutable, h]

theorem uuid_not_mem_dashes (u : String) (hu : looksLikeUuid u = true)
    (sk : List String) (hsk : ∀ s ∈ sk, strStartsWith s "-" = true) :
    u ∉ sk := by
  intro hmem
  have h1 := looksLikeUuid_not_dash u hu
  have h2 := hsk u hmem
  rw [h1] at h2
  exact absurd h2 (by decide)

/-- C5 counterexample: a normalized record whose flag list holds the bare
positional token `foo` does not round-trip — rebuilding the argv, joining it
and re-extracting drops the positional token, giving `[]` instead of
`["foo"]`. -/
theorem c5_counterexample :
    (shell_join (build_restore_argv
        [("tool", .str "claude"), ("cwd", .str "/tmp"),
         ("flags", .arr [.str "foo"])])).map extract_claude_flags
      = some []
    ∧ (normalize_restore_entry
        [("tool", .str "claude"), ("cwd", .str "/tmp"),
         ("flags", .arr [.str "foo"])]).flags = ["foo"]
    ∧ ([] : List String) ≠ ["foo"] :=
  ⟨by decide, by decide, by decide⟩

/-- C5 (amended): for every normalized session record whose session id is
absent or a canonical UUID and whose flag sequence is itself a fixed point
of the tool's extraction walk (i.e. a genuine flag sequence: options with
their values, no bare positionals and no directive tokens), joining the argv
produced by `build_restore_argv` back into a command line and re-running the
tool's flag extraction on it yields exactly the original flag sequence. -/
theorem c5_flag_roundtrip (entry : Dict)
    (hsid : (normalize_restore_entry entry).sessionId = none ∨
      ∃ u, (normalize_restore_entry entry).sessionId = some (.str u) ∧
        looksLikeUuid u = true) :
    ((normalize_restore_entry entry).tool = "claude" →
      extractTokens ["--resume", "-r", "--continue", "-c"]
          CLAUDE_OPTS_WITH_VALUE [] (normalize_restore_entry entry).flags
        = (normalize_restore_entry entry).flags →
      (shell_join (build_restore_argv entry)).map extract_claude_flags
        = some (normalize_restore_entry entry).flags)
    ∧ ((normalize_restore_entry entry).tool = "codex" →
      extractTokens ["--last", "--all"] CODEX_OPTS_WITH_VALUE
          CODEX_INTERACTIVE_SUBCOMMANDS (normalize_restore_entry entry).flags
        = (normalize_restore_entry entry).flags →
      (shell_join (build_restore_argv entry)).map extract_codex_flags
        = some (normalize_restore_entry entry).flags) := by
  constructor
  · intro htool hfix
    rcases hsid with h | ⟨u, h, hu⟩
    · have hargv : build_restore_argv entry =
          ("claude" :: "--continue"
            :: (normalize_restore_entry entry).flags).map .str := by
        unfold build_restore_argv
        simp only [htool, h]
        simp
      rw [hargv]
      unfold shell_join
      rw [jsonStrs_map_str]
      show some (extract_claude_flags (shellJoinStrs
        ("claude" :: "--continue" :: (normalize_restore_entry entry).flags)))
        = _
      refine congrArg some ?_
      unfold extract_claude_flags
      rw [parse_shell_join, stripExecutable_match _ _ (by decide),
        extractTokens_skip1 _ _ _ _ _ (by decide) (by decide), hfix]
    · have hargv : build_restore_argv entry =
          ("claude" :: "--resume" :: u
            :: (normalize_restore_entry entry).flags).map .str := by
        unfold build_restore_argv
        simp only [htool, h]
        simp
      rw [hargv]
      unfold shell_join
      rw [jsonStrs_map_str]
      show some (extract_claude_flags (shellJoinStrs
        ("claude" :: "--resume" :: u
          :: (normalize_restore_entry entry).flags))) = _
      refine congrArg some ?_
      unfold extract_claude_flags
      rw [parse_shell_join, stripExecutable_match _ _ (by decide),
        extractTokens_skip1 _ _ _ _ _ (by decide) (by decide),
        extractTokens_drop_positional _ _ _ _ _
          (looksLikeUuid_not_dash u hu)
          (uuid_not_mem_dashes u hu _ (by decide))
          (by simp),
        hfix]
  · intro htool hfix
    rcases hsid with h | ⟨u, h, hu⟩
    · have hargv : build_restore_argv entry =
          ("codex" :: "resume" :: "--last"
            :: (normalize_restore_entry entry).flags).map .str := by
        unfold build_restore_argv
        simp only [htool, h]
        simp
      rw [hargv]
      unfold shell_join
      rw [jsonStrs_map_str]
      show some (extract_codex_flags (shellJoinStrs
        ("codex" :: "resume" :: "--last"
          :: (normalize_restore_entry entry).flags))) = _
      refine congrArg some ?_
      unfold extract_codex_flags
      rw [parse_shell_join, stripExecutable_match _ _ (by decide),
        extractTokens_skipUuid_miss _ _ _ _ _ _ (by decide) (by decide)
          (by decide),
        extractTokens_skip1 _ _ _ _ _ (by decide) (by decide), hfix]
    · have hargv : build_restore_argv entry =
          ("codex" :: "resume" :: u
            :: (normalize_restore_entry entry).flags).map .str := by
        unfold build_restore_argv
        simp only [htool, h]
        simp
      rw [hargv]
      unfold shell_join
      rw [jsonStrs_map_str]
      show some (extract_codex_flags (shellJoinStrs
        ("codex" :: "resume" :: u
          :: (normalize_restore_entry entry).flags))) = _
      refine congrArg some ?_
      unfold extract_codex_flags
      rw [parse_shell_join, stripExecutable_match _ _ (by decide),
        extractTokens_skipUuid _ _ _ _ _ _ (by decide) (by decide) hu,
        hfix]

/-- C5 witness: the round-trip at a concrete codex record with a UUID
session id and a well-formed flag sequence. -/
theorem c5_flag_roundtrip_witness :
    (shell_join (build_restore_argv
        [("tool", .str "codex"), ("cwd", .str "/w"),
         ("sessionId", .str "019c5bce-a952-7380-b204-bfe40bf783b6"),
         ("flags", .arr [.str "--model", .str "gpt-5"])])).map
        extract_codex_flags
      = some (normalize_restore_entry
          [("tool", .str "codex"), ("cwd", .str "/w"),
           ("sessionId", .str "019c5bce-a952-7380-b204-bfe40bf783b6"),
           ("flags", .arr [.str "--model", .str "gpt-5"])]).flags :=
  (c5_flag_roundtrip _
    (Or.inr ⟨"019c5bce-a952-7380-b204-bfe40bf783b6", by decide, by decide⟩)).2
    (by decide) (by decide)

/-! ## Claim C6: the log-scan resolver and duplicate-free assignment

First the string plumbing: a kept directory entry `name` ending in `.jsonl`
decomposes as `sid ++ ".jsonl"` with `sid = name.removesuffix(".jsonl")`. -/

theorem isPref_iff_append (a : List Char) :
    ∀ b, isPref a b = true ↔ ∃ c, b = a ++ c := by
  induction a with
  | nil => intro b; simp [isPref]
  | cons x xs ih =>
    intro b
    cases b with
    | nil => simp [isPref]
    | cons y ys =>
      rw [isPref]
      constructor
      · intro h
        rcases Bool.and_eq_true .. ▸ h with ⟨h1, h2⟩
        rcases (ih ys).mp h2 with ⟨c, hc⟩
        exact ⟨c, by rw [hc, decide_eq_true_eq.mp h1]; simp⟩
      · rintro ⟨c, hc⟩
        injection hc with hy hys
        subst hy
        rw [decide_eq_true_eq.mpr rfl, Bool.true_and]
        exact (ih ys).mpr ⟨c, hys⟩

theorem strEndsWith_decomp (s suf : String) (hne : suf ≠ "")
    (h : strEndsWith s suf = true) :
    s = pyRemoveSuffix s suf ++ suf := by
  unfold strEndsWith at h
  rcases (isPref_iff_append suf.data.reverse s.data.reverse).mp h with ⟨c, hc⟩
  have hdata : s.data = c.reverse ++ suf.data := by
    have := congrArg List.reverse hc
    simpa using this
  unfold pyRemoveSuffix
  rw [if_pos ⟨hne, h⟩]
  apply strEq_of_data
  rw [data_append, data_mk, hdata]
  have hlen : (c.reverse ++ suf.data).length - suf.data.length
      = c.reverse.length := by
    simp
  rw [hlen, List.take_left]

/-! The descending tuple comparison is a total preorder. -/

theorem charListLt_irrefl : ∀ a, charListLt a a = false := by
  intro a
  induction a with
  | nil => rfl
  | cons c cs ih => simp [charListLt, ih]

theorem charListLt_trans :
    ∀ a b c, charListLt a b = true → charListLt b c = true →
      charListLt a c = true := by
  intro a
  induction a with
  | nil =>
    intro b c hab hbc
    cases b with
    | nil => exact absurd hab (by simp [charListLt])
    | cons y ys =>
      cases c with
      | nil => exact absurd hbc (by simp [charListLt])
      | cons z zs => simp [charListLt]
  | cons x xs ih =>
    intro b c hab hbc
    cases b with
    | nil => exact absurd hab (by simp [charListLt])
    | cons y ys =>
      cases c with
      | nil => exact absurd hbc (by simp [charListLt])
      | cons z zs =>
        rw [charListLt] at hab hbc ⊢
        rcases lt_trichotomy x y with hxy | hxy | hxy
        · rcases lt_trichotomy y z with hyz | hyz | hyz
          · rw [if_pos (lt_trans hxy hyz)]
          · subst hyz; rw [if_pos hxy]
          · rw [if_neg (lt_asymm hyz), if_pos hyz] at hbc
            exact absurd hbc (by decide)
        · subst hxy
          rw [if_neg (lt_irrefl x)] at hab
          rw [if_neg (lt_irrefl x)] at hab
          rcases lt_trichotomy x z with hxz | hxz | hxz
          · rw [if_pos hxz]
          · subst hxz
            rw [if_neg (lt_irrefl x)] at hbc ⊢
            rw [if_neg (lt_irrefl x)] at hbc ⊢
            exact ih ys zs hab hbc
          · rw [if_neg (lt_asymm hxz), if_pos hxz] at hbc
            exact absurd hbc (by decide)
        · rw [if_neg (lt_asymm hxy), if_pos hxy] at hab
          exact absurd hab (by decide)

theorem charListLt_connex :
    ∀ a b, charListLt a b = false → charListLt b a = false → a = b := by
  intro a
  induction a with
  | nil =>
    intro b hab _
    cases b with
    | nil => rfl
    | cons y ys => exact absurd hab (by simp [charListLt])
  | cons x xs ih =>
    intro b hab hba
    cases b with
    | nil => exact absurd hba (by simp [charListLt])
    | cons y ys =>
      rw [charListLt] at hab hba
      rcases lt_trichotomy x y with hxy | hxy | hxy
      · rw [if_pos hxy] at hab
        exact absurd hab (by decide)
      · subst hxy
        rw [if_neg (lt_irrefl x)] at hab hba
        rw [if_neg (lt_irrefl x)] at hab hba
        rw [ih ys hab hba]
      · rw [if_pos hxy] at hba
        exact absurd hba (by decide)

theorem charListLt_asymm (a b : List Char) (h : charListLt a b = true) :
    charListLt b a = false := by
  by_contra hc
  have hba : charListLt b a = true := by
    revert hc; cases charListLt b a <;> simp
  have := charListLt_trans a b a h hba
  rw [charListLt_irrefl] at this
  exact absurd this (by decide)

theorem candGe_total (a b : Int × String × String) :
    candGe a b = true ∨ candGe b a = true := by
  rcases a with ⟨m1, s1, p1⟩
  rcases b with ⟨m2, s2, p2⟩
  rw [candGe, candGe]
  by_cases hm : m1 = m2
  · subst hm
    rw [if_neg (show ¬ (m1 ≠ m1) by simp)]
    rw [if_neg (show ¬ (m1 ≠ m1) by simp)]
    by_cases hs : s1 = s2
    · subst hs
      rw [if_neg (show ¬ (s1 ≠ s1) by simp)]
      rw [if_neg (show ¬ (s1 ≠ s1) by simp)]
      by_cases hp : charListLt p1.data p2.data = true
      · right; rw [charListLt_asymm _ _ hp]; rfl
      · left; rw [Bool.not_eq_true] at hp; rw [hp]; rfl
    · rw [if_pos hs]
      rw [if_pos (show s2 ≠ s1 from fun hc => hs hc.symm)]
      by_cases h1 : charListLt s2.data s1.data = true
      · left; exact h1
      · right
        by_cases h2 : charListLt s1.data s2.data = true
        · exact h2
        · rw [Bool.not_eq_true] at h1 h2
          exact absurd (strEq_of_data (charListLt_connex _ _ h2 h1)) hs
  · rw [if_pos hm]
    rw [if_pos (show m2 ≠ m1 from fun hc => hm hc.symm)]
    rcases lt_or_gt_of_ne hm with h | h
    · right; simpa using h
    · left; simpa using h

theorem candGe_trans (a b c : Int × String × String)
    (hab : candGe a b = true) (hbc : candGe b c = true) :
    candGe a c = true := by
  rcases a with ⟨m1, s1, p1⟩
  rcases b with ⟨m2, s2, p2⟩
  rcases c with ⟨m3, s3, p3⟩
  rw [candGe] at hab hbc ⊢
  by_cases h12 : m1 = m2
  · subst h12
    rw [if_neg (show ¬ (m1 ≠ m1) by simp)] at hab
    by_cases h23 : m1 = m3
    · subst h23
      rw [if_neg (show ¬ (m1 ≠ m1) by simp)] at hbc ⊢
      by_cases hs12 : s1 = s2
      · subst hs12
        rw [if_neg (show ¬ (s1 ≠ s1) by simp)] at hab
        by_cases hs23 : s1 = s3
        · subst hs23
          rw [if_neg (show ¬ (s1 ≠ s1) by simp)] at hbc ⊢
          rw [Bool.not_eq_true'] at hab hbc ⊢
          by_contra hc
          have hc' : charListLt p1.data p3.data = true := by
            revert hc; cases charListLt p1.data p3.data <;> simp
          by_cases hq : charListLt p3.data p2.data = true
          · have := charListLt_trans _ _ _ hc' hq
            rw [hab] at this; exact absurd this (by decide)
          · rw [Bool.not_eq_true] at hq
            have hpp : p2.data = p3.data := charListLt_connex _ _ hbc hq
            rw [hpp] at hab
            rw [hab] at hc'; exact absurd hc' (by decide)
        · rw [if_pos hs23] at hbc ⊢
          exact hbc
      · rw [if_pos hs12] at hab
        by_cases hs23 : s2 = s3
        · subst hs23
          rw [if_pos hs12]
          exact hab
        · rw [if_pos hs23] at hbc
          by_cases hs13 : s1 = s3
          · subst hs13
            have := charListLt_trans _ _ _ hbc hab
            rw [charListLt_irrefl] at this
            exact absurd this (by decide)
          · rw [if_pos hs13]
            exact charListLt_trans _ _ _ hbc hab
    · rw [if_pos (show m1 ≠ m3 from h23)] at hbc ⊢
      exact hbc
  · rw [if_pos h12] at hab
    have h1 : m2 < m1 := by simpa using hab
    by_cases h23 : m2 = m3
    · subst h23
      rw [if_pos h12]
      exact hab
    · rw [if_pos h23] at hbc
      have h2 : m3 < m2 := by simpa using hbc
      have h13 : m3 < m1 := lt_trans h2 h1
      rw [if_pos (show m1 ≠ m3 by omega)]
      simpa using h13

theorem candGe_mtime (a b : Int × String × String) (h : candGe a b = true) :
    b.1 ≤ a.1 := by
  rcases a with ⟨m1, s1, p1⟩
  rcases b with ⟨m2, s2, p2⟩
  rw [candGe] at h
  by_cases hm : m1 = m2
  · subst hm; exact le_refl _
  · rw [if_pos hm] at h
    have : m2 < m1 := by simpa using h
    exact le_of_lt this

/-! Facts about the collected candidates: each kept entry decomposes as
`sid ++ ".jsonl"`, carries its readable mtime, and is neither the reserved
index file nor an already-claimed id. -/

theorem sessionCandidates_mem (fs : RawFS) (pd : String) (ns : List String)
    (claimed : List Json) (c : Int × String × String)
    (hc : c ∈ sessionCandidates fs pd ns claimed) :
    (c.2.1 ++ ".jsonl") ∈ ns ∧
    c.2.2 = pd ++ "/" ++ (c.2.1 ++ ".jsonl") ∧
    fs.mtime c.2.2 = some c.1 ∧
    Json.str c.2.1 ∉ claimed ∧
    c.2.1 ++ ".jsonl" ≠ "sessions-index.json" := by
  simp only [sessionCandidates, List.mem_filterMap] at hc
  rcases hc with ⟨name, hmem, hf⟩
  by_cases h1 : (¬ strEndsWith name ".jsonl" = true ∨ name = "sessions-index.json")
  · rw [if_pos h1] at hf; exact absurd hf (by simp)
  · rw [if_neg h1] at hf
    push_neg at h1
    rcases h1 with ⟨hend, hidx⟩
    by_cases h2 : Json.str (pyRemoveSuffix name ".jsonl") ∈ claimed
    · rw [if_pos h2] at hf; exact absurd hf (by simp)
    · rw [if_neg h2] at hf
      rcases hm : fs.mtime (pd ++ "/" ++ name) with _ | m
      · rw [hm] at hf; exact absurd hf (by simp)
      · rw [hm] at hf
        have hf2 : some ((m, pyRemoveSuffix name ".jsonl", pd ++ "/" ++ name) :
            Int × String × String) = some c := hf
        injection hf2 with hf2
        subst hf2
        have hname : name = pyRemoveSuffix name ".jsonl" ++ ".jsonl" :=
          strEndsWith_decomp name ".jsonl" (by decide) hend
        refine ⟨?_, ?_, hm, h2, ?_⟩
        · rw [← hname]; exact hmem
        · show pd ++ "/" ++ name = pd ++ "/" ++ (pyRemoveSuffix name ".jsonl" ++ ".jsonl")
          rw [← hname]
        · rw [← hname]; exact hidx

/-- A `filterMap` whose produced entries determine the original directory
entry (`name = sid ++ ".jsonl"`) maps duplicate-free listings to
duplicate-free session-id sequences. -/
theorem nodup_filterMap_sid (l : List String)
    (f : String → Option (Int × String × String))
    (hf : ∀ name c, f name = some c → name = c.2.1 ++ ".jsonl")
    (hl : l.Nodup) : ((l.filterMap f).map (fun c => c.2.1)).Nodup := by
  induction l with
  | nil => simp
  | cons a as ih =>
    rcases hfa : f a with _ | c
    · rw [List.filterMap_cons, hfa]
      exact ih (List.nodup_cons.mp hl).2
    · rw [List.filterMap_cons, hfa, List.map_cons, List.nodup_cons]
      constructor
      · intro hmem
        rw [List.mem_map] at hmem
        rcases hmem with ⟨c2, hc2, heq⟩
        rw [List.mem_filterMap] at hc2
        rcases hc2 with ⟨name2, hname2, hf2⟩
        have h1 := hf _ _ hf2
        have h2 := hf _ _ hfa
        rw [heq, ← h2] at h1
        rw [h1] at hname2
        exact (List.nodup_cons.mp hl).1 hname2
      · exact ih (List.nodup_cons.mp hl).2

theorem sessionCandidates_sids_nodup (fs : RawFS) (pd : String)
    (ns : List String) (claimed : List Json) (hns : ns.Nodup) :
    ((sessionCandidates fs pd ns claimed).map (fun c => c.2.1)).Nodup := by
  rw [sessionCandidates]
  apply nodup_filterMap_sid _ _ _ hns
  intro name c h
  have hmemc : c ∈ sessionCandidates fs pd [name] claimed :=
    List.mem_filterMap.mpr ⟨name, List.mem_singleton_self name, h⟩
  have hfacts := sessionCandidates_mem fs pd [name] claimed c hmemc
  have h1 := hfacts.1
  rw [List.mem_singleton] at h1
  exact h1.symm

/-! The selection loop: its output extends the accumulator by the ids of a
sublist of real candidates, and never exceeds the wanted count. -/

theorem takeRealSessions_spec (fs : RawFS) (count : Int) :
    ∀ (cands : List (Int × String × String)) (out0 out : List String),
      takeRealSessions fs count cands out0 = some out →
      ∃ cs : List (Int × String × String), cs.Sublist cands ∧
        out = out0 ++ cs.map (fun c => c.2.1) ∧
        (∀ c ∈ cs, is_real_claude_session fs c.2.2 = some true) ∧
        (out.length : Int) ≤ max count (out0.length : Int) := by
  intro cands
  induction cands with
  | nil =>
    intro out0 out h
    rw [takeRealSessions] at h
    injection h with h
    subst h
    exact ⟨[], List.nil_sublist _, by simp, by simp, le_max_right _ _⟩
  | cons c rest ih =>
    intro out0 out h
    rcases c with ⟨m, sid, path⟩
    rw [takeRealSessions] at h
    by_cases hcnt : count ≤ (out0.length : Int)
    · rw [if_pos hcnt] at h
      injection h with h
      subst h
      exact ⟨[], List.nil_sublist _, by simp, by simp, le_max_right _ _⟩
    · rw [if_neg hcnt] at h
      rcases hreal : is_real_claude_session fs path with _ | b
      · rw [hreal] at h; exact absurd h (by simp)
      · rw [hreal] at h
        cases b with
        | true =>
          rcases ih (out0 ++ [sid]) out h with ⟨cs, hsub, hout, hreal2, hlen⟩
          refine ⟨(m, sid, path) :: cs, List.Sublist.cons₂ _ hsub, ?_, ?_, ?_⟩
          · rw [hout]; simp
          · intro c2 hc2
            rcases List.mem_cons.mp hc2 with hc2 | hc2
            · rw [hc2]; exact hreal
            · exact hreal2 c2 hc2
          · simp only [List.length_append, List.length_cons, List.length_nil] at hlen
            omega
        | false =>
          rcases ih out0 out h with ⟨cs, hsub, hout, hreal2, hlen⟩
          exact ⟨cs, List.Sublist.cons _ hsub, hout, hreal2, hlen⟩

/-! The full specification of `get_recent_real_claude_sessions`: at most
`count` ids, pairwise distinct, each the stem of a directory entry whose log
holds a user message, none claimed, none the reserved index file, listed in
descending modification-time order. -/

theorem get_recent_spec (fs : RawFS)
    (hnodup : ∀ d ns, fs.listDir d = some ns → ns.Nodup)
    (pd : String) (count : Int) (claimed : List Json) (out : List String)
    (h : get_recent_real_claude_sessions fs pd count claimed = some out) :
    out.length ≤ count.toNat ∧ out.Nodup ∧
    ∃ cs : List (Int × String),
      out = cs.map Prod.snd ∧
      cs.Chain' (fun a b => b.1 ≤ a.1) ∧
      ∀ c ∈ cs,
        (∃ ns, fs.listDir pd = some ns ∧ (c.2 ++ ".jsonl") ∈ ns) ∧
        fs.mtime (pd ++ "/" ++ (c.2 ++ ".jsonl")) = some c.1 ∧
        is_real_claude_session fs (pd ++ "/" ++ (c.2 ++ ".jsonl")) = some true ∧
        Json.str c.2 ∉ claimed ∧
        (c.2 ++ ".jsonl") ≠ "sessions-index.json" := by
  unfold get_recent_real_claude_sessions at h
  by_cases hcnt : count ≤ 0
  · rw [if_pos hcnt] at h
    injection h with h
    subst h
    exact ⟨Nat.zero_le _, by simp, [], by simp, by simp, by simp⟩
  · rw [if_neg hcnt] at h
    rcases hls : fs.listDir pd with _ | ns
    · rw [hls] at h
      have h2 : some ([] : List String) = some out := h
      injection h2 with h2
      subst h2
      exact ⟨Nat.zero_le _, by simp, [], by simp, by simp, by simp⟩
    · rw [hls] at h
      have h2 : takeRealSessions fs count
          ((sessionCandidates fs pd ns claimed).insertionSort
            (fun a b => candGe a b)) [] = some out := h
      rcases takeRealSessions_spec fs count _ [] out h2 with
        ⟨cs0, hsub, hout, hreal, hlen⟩
      simp only [List.nil_append] at hout
      have hsorted : ((sessionCandidates fs pd ns claimed).insertionSort
          (fun a b => candGe a b)).Pairwise (fun a b => candGe a b = true) := by
        haveI : IsTotal (Int × String × String) (fun a b => candGe a b = true) :=
          ⟨fun a b => candGe_total a b⟩
        haveI : IsTrans (Int × String × String) (fun a b => candGe a b = true) :=
          ⟨fun a b c => candGe_trans a b c⟩
        exact List.sorted_insertionSort _ _
      have hperm : ((sessionCandidates fs pd ns claimed).insertionSort
          (fun a b => candGe a b)).Perm (sessionCandidates fs pd ns claimed) :=
        List.perm_insertionSort _ _
      have hPcs : cs0.Pairwise (fun a b => candGe a b = true) :=
        hsorted.sublist hsub
      have hmemc : ∀ c ∈ cs0, c ∈ sessionCandidates fs pd ns claimed := by
        intro c hc
        exact hperm.mem_iff.mp (hsub.subset hc)
      refine ⟨?_, ?_, cs0.map (fun c => (c.1, c.2.1)), ?_, ?_, ?_⟩
      · simp only [List.length_nil, Nat.cast_zero] at hlen
        omega
      · have hns := hnodup pd ns hls
        have h4 := sessionCandidates_sids_nodup fs pd ns claimed hns
        have h5 : (((sessionCandidates fs pd ns claimed).insertionSort
            (fun a b => candGe a b)).map (fun c => c.2.1)).Nodup :=
          ((hperm.map _).nodup_iff).mpr h4
        rw [hout]
        exact List.Nodup.sublist (hsub.map _) h5
      · rw [hout, List.map_map]
        rfl
      · have h6 : (cs0.map (fun c => (c.1, c.2.1))).Pairwise
            (fun a b => b.1 ≤ a.1) := by
          rw [List.pairwise_map]
          exact hPcs.imp (fun hab => candGe_mtime _ _ hab)
        exact h6.chain'
      · intro c hc
        rw [List.mem_map] at hc
        rcases hc with ⟨c0, hc0, hceq⟩
        rcases sessionCandidates_mem fs pd ns claimed c0 (hmemc c0 hc0) with
          ⟨hin, hpath, hmt, hncl, hnidx⟩
        subst hceq
        refine ⟨⟨ns, rfl, hin⟩, ?_, ?_, hncl, hnidx⟩
        · rw [← hpath]; exact hmt
        · rw [← hpath]; exact hreal c0 hc0

/-! The positional-assignment machinery of the grouped resolution phase. -/

theorem zip_map_fst_sublist {α β : Type} :
    ∀ (l1 : List α) (l2 : List β), ((l1.zip l2).map Prod.fst).Sublist l1 := by
  intro l1
  induction l1 with
  | nil => intro l2; simp
  | cons a as ih =>
    intro l2
    cases l2 with
    | nil => simp
    | cons b bs =>
      rw [List.zip_cons_cons, List.map_cons]
      exact List.Sublist.cons₂ _ (ih bs)

theorem zip_map_snd_sublist {α β : Type} :
    ∀ (l1 : List α) (l2 : List β), ((l1.zip l2).map Prod.snd).Sublist l2 := by
  intro l1
  induction l1 with
  | nil => intro l2; simp
  | cons a as ih =>
    intro l2
    cases l2 with
    | nil => simp
    | cons b bs =>
      rw [List.zip_cons_cons, List.map_cons]
      exact List.Sublist.cons₂ _ (ih bs)

theorem setSidAt_get_ne :
    ∀ (l : List Record) (j : Nat) (s : String) (i : Nat), i ≠ j →
      (setSidAt l j s).get? i = l.get? i := by
  intro l
  induction l with
  | nil => intro j s i _; rw [setSidAt]
  | cons r rest ih =>
    intro j s i hne
    cases j with
    | zero =>
      cases i with
      | zero => exact absurd rfl hne
      | succ i => rw [setSidAt, List.get?_cons_succ, List.get?_cons_succ]
    | succ j =>
      cases i with
      | zero => rw [setSidAt, List.get?_cons_zero, List.get?_cons_zero]
      | succ i =>
        rw [setSidAt, List.get?_cons_succ, List.get?_cons_succ]
        exact ih j s i (fun hc => hne (by rw [hc]))

theorem setSidAt_get_eq :
    ∀ (l : List Record) (j : Nat) (s : String) (r : Record), l.get? j = some r →
      (setSidAt l j s).get? j = some { r with sessionId := some (.str s) } := by
  intro l
  induction l with
  | nil => intro j s r h; simp at h
  | cons r0 rest ih =>
    intro j s r h
    cases j with
    | zero =>
      rw [List.get?_cons_zero] at h
      injection h with h
      subst h
      rw [setSidAt, List.get?_cons_zero]
    | succ j =>
      rw [List.get?_cons_succ] at h
      rw [setSidAt, List.get?_cons_succ]
      exact ih j s r h

theorem applyAsn_get_notin :
    ∀ (asn : List (Nat × String)) (ss : List Record) (i : Nat),
      i ∉ asn.map Prod.fst → (applyAsn asn ss).get? i = ss.get? i := by
  intro asn
  induction asn with
  | nil => intro ss i _; rfl
  | cons p rest ih =>
    intro ss i hni
    rw [List.map_cons, List.mem_cons] at hni
    push_neg at hni
    show (applyAsn rest (setSidAt ss p.1 p.2)).get? i = ss.get? i
    rw [ih _ i hni.2]
    exact setSidAt_get_ne ss p.1 p.2 i hni.1

theorem applyAsn_get_mem :
    ∀ (asn : List (Nat × String)) (ss : List Record) (p : Nat × String),
      p ∈ asn → (asn.map Prod.fst).Nodup →
      ∀ r : Record, ss.get? p.1 = some r →
      (applyAsn asn ss).get? p.1 = some { r with sessionId := some (.str p.2) } := by
  intro asn
  induction asn with
  | nil => intro ss p hp; exact absurd hp (List.not_mem_nil p)
  | cons q rest ih =>
    intro ss p hp hnd r hr
    rw [List.map_cons, List.nodup_cons] at hnd
    show (applyAsn rest (setSidAt ss q.1 q.2)).get? p.1 = _
    rcases List.mem_cons.mp hp with hp | hp
    · subst hp
      rw [applyAsn_get_notin rest _ p.1 hnd.1]
      exact setSidAt_get_eq ss p.1 p.2 r hr
    · have hpq : p.1 ≠ q.1 := by
        intro hc
        exact hnd.1 (hc ▸ List.mem_map_of_mem Prod.fst hp)
      exact ih _ p hp hnd.2 r (by rw [setSidAt_get_ne ss q.1 q.2 p.1 hpq]; exact hr)

/-- In a pair list with duplicate-free second components, entries agreeing on
the second component coincide. -/
theorem nodup_map_snd_eq :
    ∀ (l : List (Nat × String)), (l.map Prod.snd).Nodup →
      ∀ a ∈ l, ∀ b ∈ l, a.2 = b.2 → a = b := by
  intro l
  induction l with
  | nil => intro _ a ha; exact absurd ha (List.not_mem_nil a)
  | cons x xs ih =>
    intro hnd a ha b hb heq
    rw [List.map_cons, List.nodup_cons] at hnd
    rcases List.mem_cons.mp ha with ha1 | ha1
    · rcases List.mem_cons.mp hb with hb1 | hb1
      · rw [ha1, hb1]
      · exfalso
        apply hnd.1
        have hm : b.2 ∈ xs.map Prod.snd := List.mem_map_of_mem _ hb1
        rw [← heq, ha1] at hm
        exact hm
    · rcases List.mem_cons.mp hb with hb1 | hb1
      · exfalso
        apply hnd.1
        have hm : a.2 ∈ xs.map Prod.snd := List.mem_map_of_mem _ ha1
        rw [heq, hb1] at hm
        exact hm
      · exact ih hnd.2 a ha1 b hb1 heq

/-! The grouping phase hands each record index to at most one group. -/

theorem groupIdxs_insertGroup_mem :
    ∀ (gs : List (String × List Nat)) (pd : String) (idx j : Nat),
      j ∈ groupIdxs (insertGroup gs pd idx) ↔ j ∈ groupIdxs gs ∨ j = idx := by
  intro gs
  induction gs with
  | nil => intro pd idx j; simp [insertGroup, groupIdxs]
  | cons g rest ih =>
    intro pd idx j
    rcases g with ⟨k, v⟩
    rw [insertGroup]
    by_cases hk : k = pd
    · rw [if_pos hk]
      simp only [groupIdxs, List.mem_append, List.mem_singleton]
      tauto
    · rw [if_neg hk]
      simp only [groupIdxs, List.mem_append, ih pd idx j]
      tauto

theorem groupIdxs_insertGroup_nodup :
    ∀ (gs : List (String × List Nat)) (pd : String) (idx : Nat),
      (groupIdxs gs).Nodup → idx ∉ groupIdxs gs →
      (groupIdxs (insertGroup gs pd idx)).Nodup := by
  intro gs
  induction gs with
  | nil => intro pd idx _ _; simp [insertGroup, groupIdxs]
  | cons g rest ih =>
    intro pd idx hnd hni
    rcases g with ⟨k, v⟩
    rw [insertGroup]
    by_cases hk : k = pd
    · rw [if_pos hk]
      show ((v ++ [idx]) ++ groupIdxs rest).Nodup
      rw [List.append_assoc, List.singleton_append, List.nodup_middle,
        List.nodup_cons]
      exact ⟨hni, hnd⟩
    · rw [if_neg hk]
      show (v ++ groupIdxs (insertGroup rest pd idx)).Nodup
      have hnd2 : (v ++ groupIdxs rest).Nodup := hnd
      rw [List.nodup_append] at hnd2 ⊢
      refine ⟨hnd2.1, ih pd idx hnd2.2.1 ?_, ?_⟩
      · intro hc
        exact hni (List.mem_append.mpr (Or.inr hc))
      · intro x hxv hxi
        rw [groupIdxs_insertGroup_mem] at hxi
        rcases hxi with hxi | hxi
        · exact hnd2.2.2 hxv hxi
        · rw [hxi] at hxv
          exact hni (List.mem_append.mpr (Or.inl hxv))

theorem buildGroupsGo_nodup (fs : RawFS) (dir : String) :
    ∀ (sessions : List Record) (n : Nat) (acc : List (String × List Nat)),
      (groupIdxs acc).Nodup → (∀ i ∈ groupIdxs acc, i < n) →
      (groupIdxs (buildGroupsGo fs dir n sessions acc)).Nodup ∧
      (∀ i ∈ groupIdxs (buildGroupsGo fs dir n sessions acc),
        i < n + sessions.length) := by
  intro sessions
  induction sessions with
  | nil =>
    intro n acc hnd hlt
    rw [buildGroupsGo]
    exact ⟨hnd, fun i hi => lt_of_lt_of_le (hlt i hi) (by simp)⟩
  | cons sess rest ih =>
    intro n acc hnd hlt
    rw [buildGroupsGo]
    by_cases hc : sess.tool = "claude" ∧ sess.sessionId = none
    · rw [if_pos hc]
      rcases hpd : find_claude_project_dir fs dir (pathComponents sess.cwd)
          with _ | pd
      · have hih := ih (n + 1) acc hnd (fun i hi => Nat.lt_succ_of_lt (hlt i hi))
        refine ⟨hih.1, fun i hi => ?_⟩
        have := hih.2 i hi
        simp only [List.length_cons]
        omega
      · have hn_notin : n ∉ groupIdxs acc := fun hc2 => lt_irrefl n (hlt n hc2)
        have hnd2 := groupIdxs_insertGroup_nodup acc pd n hnd hn_notin
        have hlt2 : ∀ i ∈ groupIdxs (insertGroup acc pd n), i < n + 1 := by
          intro i hi
          rw [groupIdxs_insertGroup_mem] at hi
          rcases hi with hi | hi
          · exact Nat.lt_succ_of_lt (hlt i hi)
          · rw [hi]
            exact Nat.lt_succ_self n
        have hih := ih (n + 1) _ hnd2 hlt2
        refine ⟨hih.1, fun i hi => ?_⟩
        have := hih.2 i hi
        simp only [List.length_cons]
        omega
    · rw [if_neg hc]
      have hih := ih (n + 1) acc hnd (fun i hi => Nat.lt_succ_of_lt (hlt i hi))
      refine ⟨hih.1, fun i hi => ?_⟩
      have := hih.2 i hi
      simp only [List.length_cons]
      omega

theorem buildGroups_nodup (fs : RawFS) (dir : String) (sessions : List Record) :
    (groupIdxs (buildGroups fs dir sessions)).Nodup :=
  (buildGroupsGo_nodup fs dir sessions 0 [] (by simp [groupIdxs])
    (by simp [groupIdxs])).1

/-- The resolution phase, decomposed: a successful pass is the application of
one assignment list whose indices are pairwise distinct group indices and
whose session ids are pairwise distinct and disjoint from the initially
claimed ids. -/
theorem applyGroups_asn (fs : RawFS)
    (hnodup : ∀ d ns, fs.listDir d = some ns → ns.Nodup) :
    ∀ (groups : List (String × List Nat)) (sessions : List Record)
      (claimed : List Json) (out : List Record),
      (groupIdxs groups).Nodup →
      applyGroups fs groups sessions claimed = some out →
      ∃ asn : List (Nat × String),
        out = applyAsn asn sessions ∧
        (asn.map Prod.fst).Nodup ∧
        (asn.map Prod.snd).Nodup ∧
        (∀ p ∈ asn, p.1 ∈ groupIdxs groups) ∧
        (∀ p ∈ asn, Json.str p.2 ∉ claimed) := by
  intro groups
  induction groups with
  | nil =>
    intro sessions claimed out _ h
    rw [applyGroups] at h
    injection h with h
    subst h
    exact ⟨[], rfl, by simp, by simp, by simp, by simp⟩
  | cons g rest ih =>
    intro sessions claimed out hnd h
    rcases g with ⟨pd, idxs⟩
    rw [applyGroups] at h
    rcases hgr : get_recent_real_claude_sessions fs pd (idxs.length : Int) claimed
        with _ | found
    · rw [hgr] at h; exact absurd h (by simp)
    · rw [hgr] at h
      have hnd2 : (idxs ++ groupIdxs rest).Nodup := hnd
      rw [List.nodup_append] at hnd2
      rcases ih _ _ out hnd2.2.1 h with ⟨asn2, hout, hfst2, hsnd2, hgi2, hncl2⟩
      have hfound := get_recent_spec fs hnodup pd (idxs.length : Int) claimed
        found hgr
      have hfoundnd : found.Nodup := hfound.2.1
      have hfoundncl : ∀ s ∈ found, Json.str s ∉ claimed := by
        rcases hfound.2.2 with ⟨cs, hfo, -, hfacts⟩
        intro s hs
        rw [hfo, List.mem_map] at hs
        rcases hs with ⟨c, hcm, hceq⟩
        rw [← hceq]
        exact (hfacts c hcm).2.2.2.1
      refine ⟨idxs.zip found ++ asn2, ?_, ?_, ?_, ?_, ?_⟩
      · rw [hout]
        simp only [applyAsn, List.foldl_append]
      · rw [List.map_append, List.nodup_append]
        refine ⟨List.Nodup.sublist (zip_map_fst_sublist idxs found) hnd2.1,
          hfst2, ?_⟩
        intro x hx1 hx2
        have hx1b : x ∈ idxs := (zip_map_fst_sublist idxs found).subset hx1
        rw [List.mem_map] at hx2
        rcases hx2 with ⟨p, hp, hpx⟩
        have hx2b := hgi2 p hp
        rw [hpx] at hx2b
        exact hnd2.2.2 hx1b hx2b
      · rw [List.map_append, List.nodup_append]
        refine ⟨List.Nodup.sublist (zip_map_snd_sublist idxs found) hfoundnd,
          hsnd2, ?_⟩
        intro x hx1 hx2
        have hx1b : x ∈ found := (zip_map_snd_sublist idxs found).subset hx1
        rw [List.mem_map] at hx2
        rcases hx2 with ⟨p, hp, hpx⟩
        have h2 := hncl2 p hp
        rw [hpx] at h2
        exact h2 (List.mem_append.mpr (Or.inr (List.mem_map_of_mem _ hx1b)))
      · intro p hp
        rcases List.mem_append.mp hp with hp | hp
        · have hm : p.1 ∈ idxs :=
            (zip_map_fst_sublist idxs found).subset (List.mem_map_of_mem _ hp)
          exact List.mem_append.mpr (Or.inl hm)
        · exact List.mem_append.mpr (Or.inr (hgi2 p hp))
      · intro p hp
        rcases List.mem_append.mp hp with hp | hp
        · have hm : p.2 ∈ found :=
            (zip_map_snd_sublist idxs found).subset (List.mem_map_of_mem _ hp)
          exact hfoundncl p.2 hm
        · intro hc
          exact hncl2 p hp (List.mem_append.mpr (Or.inl hc))

/-- C6: the log-scan resolver returns at most the wanted count of session
ids, pairwise distinct, in descending modification-time order, each the stem
of a listed `.jsonl` log holding a user entry within its first 25 lines,
none already claimed and never the reserved index file; and across one full
resolution pass over a snapshot, no session id is assigned to two unresolved
records, nor to an unresolved record and an explicitly claimed id. -/
theorem c6_log_scan_resolver (fs : RawFS)
    (hnodup : ∀ d ns, fs.listDir d = some ns → ns.Nodup) :
    (∀ pd count claimed out,
      get_recent_real_claude_sessions fs pd count claimed = some out →
      out.length ≤ count.toNat ∧ out.Nodup ∧
      ∃ cs : List (Int × String),
        out = cs.map Prod.snd ∧
        cs.Chain' (fun a b => b.1 ≤ a.1) ∧
        ∀ c ∈ cs,
          (∃ ns, fs.listDir pd = some ns ∧ (c.2 ++ ".jsonl") ∈ ns) ∧
          fs.mtime (pd ++ "/" ++ (c.2 ++ ".jsonl")) = some c.1 ∧
          is_real_claude_session fs (pd ++ "/" ++ (c.2 ++ ".jsonl"))
            = some true ∧
          Json.str c.2 ∉ claimed ∧
          (c.2 ++ ".jsonl") ≠ "sessions-index.json") ∧
    (∀ snapshot dir out,
      resolve_sessions fs snapshot dir = some out →
      (∀ i j ri rj oi oj s,
        (resolveInitial snapshot).1.get? i = some ri →
        (resolveInitial snapshot).1.get? j = some rj →
        out.get? i = some oi → out.get? j = some oj →
        ri.sessionId = none → rj.sessionId = none →
        oi.sessionId = some (.str s) → oj.sessionId = some (.str s) →
        i = j) ∧
      (∀ i ri oi s,
        (resolveInitial snapshot).1.get? i = some ri →
        out.get? i = some oi →
        ri.sessionId = none → oi.sessionId = some (.str s) →
        Json.str s ∉ (resolveInitial snapshot).2)) := by
  constructor
  · intro pd count claimed out h
    exact get_recent_spec fs hnodup pd count claimed out h
  · intro snapshot dir out h
    simp only [resolve_sessions] at h
    have hgnd := buildGroups_nodup fs dir (resolveInitial snapshot).1
    rcases applyGroups_asn fs hnodup _ _ _ out hgnd h with
      ⟨asn, hout, hfst, hsnd, hgi, hncl⟩
    constructor
    · intro i j ri rj oi oj s hri hrj hoi hoj hrin hrjn hois hojs
      subst hout
      by_cases hi : i ∈ asn.map Prod.fst
      · by_cases hj : j ∈ asn.map Prod.fst
        · rcases List.mem_map.mp hi with ⟨pi, hpi, hpii⟩
          rcases List.mem_map.mp hj with ⟨pj, hpj, hpjj⟩
          have hoi2 := applyAsn_get_mem asn (resolveInitial snapshot).1 pi hpi
            hfst ri (by rw [hpii]; exact hri)
          have hoj2 := applyAsn_get_mem asn (resolveInitial snapshot).1 pj hpj
            hfst rj (by rw [hpjj]; exact hrj)
          rw [hpii] at hoi2
          rw [hpjj] at hoj2
          rw [hoi2] at hoi
          rw [hoj2] at hoj
          injection hoi with hoi
          injection hoj with hoj
          have hsi : pi.2 = s := by
            rw [← hoi] at hois
            simp at hois
            exact hois
          have hsj : pj.2 = s := by
            rw [← hoj] at hojs
            simp at hojs
            exact hojs
          have hpij : pi = pj :=
            nodup_map_snd_eq asn hsnd pi hpi pj hpj (by rw [hsi, hsj])
          rw [← hpii, ← hpjj, hpij]
        · exfalso
          rw [applyAsn_get_notin asn _ j hj, hrj] at hoj
          injection hoj with hoj
          rw [← hoj, hrjn] at hojs
          exact Option.noConfusion hojs
      · exfalso
        rw [applyAsn_get_notin asn _ i hi, hri] at hoi
        injection hoi with hoi
        rw [← hoi, hrin] at hois
        exact Option.noConfusion hois
    · intro i ri oi s hri hoi hrin hois
      subst hout
      by_cases hi : i ∈ asn.map Prod.fst
      · rcases List.mem_map.mp hi with ⟨pi, hpi, hpii⟩
        have hoi2 := applyAsn_get_mem asn (resolveInitial snapshot).1 pi hpi
          hfst ri (by rw [hpii]; exact hri)
        rw [hpii] at hoi2
        rw [hoi2] at hoi
        injection hoi with hoi
        have hsi : pi.2 = s := by
          rw [← hoi] at hois
          simp at hois
          exact hois
        rw [← hsi]
        exact hncl pi hpi
      · exfalso
        rw [applyAsn_get_notin asn _ i hi, hri] at hoi
        injection hoi with hoi
        rw [← hoi, hrin] at hois
        exact Option.noConfusion hois

/-- C6 witness: the duplicate-free-listing hypothesis holds of the concrete
one-file filesystem, on which the resolver returns the single real session,
within the wanted count and without duplicates. -/
theorem c6_log_scan_resolver_witness :
    (∀ d ns, fsW.listDir d = some ns → ns.Nodup) ∧
    get_recent_real_claude_sessions fsW "p" 1 [] = some ["s"] ∧
    ["s"].length ≤ (1 : Int).toNat ∧ (["s"] : List String).Nodup := by
  have hnodup : ∀ d ns, fsW.listDir d = some ns → ns.Nodup := by
    intro d ns h
    have h2 : (if d = "p" then some ["s.jsonl"] else none) = some ns := h
    by_cases hd : d = "p"
    · rw [if_pos hd] at h2
      injection h2 with h2
      rw [← h2]
      decide
    · rw [if_neg hd] at h2
      exact Option.noConfusion h2
  have hmain := (c6_log_scan_resolver fsW hnodup).1 "p" 1 [] ["s"] (by decide)
  exact ⟨hnodup, by decide, hmain.1, hmain.2.1⟩

end SessionRestore
